import Mathlib

/-!
# Request engine and router of `src/js/async_prog/chapter.js`

A shallow embedding of the promise based `request` retry loop, the
`requestType` wrapper, `findRoute` and `routeRequest`, followed by the
properties proved about them.
-/

namespace AsyncProg

/-! ## JavaScript values -/

/-- The JavaScript values that travel through the request engine. -/
inductive JSVal where
  | undefined
  | null
  | bool (b : Bool)
  | nan
  | num (n : Int)
  | str (s : String)
  | error (message : String)
  | timeout (message : String)
  | routeMsg (target : String) (type : String) (content : JSVal)
  | connMsg (name : String) (neighbors : Option (List String))
  deriving DecidableEq, Repr

/-- JavaScript truthiness, as used by `if (failed)`, `via || next` and `!via`. -/
def truthy : JSVal → Bool
  | .undefined => false
  | .null => false
  | .bool b => b
  | .nan => false
  | .num n => n != 0
  | .str s => s != ""
  | _ => true

/-! ## `request` (lines 61-82) -/

/-- How the promise returned by `request` has been settled. -/
inductive Outcome where
  | resolved (value : JSVal)
  | rejected (reason : JSVal)
  deriving DecidableEq, Repr

/-- The value of `new Timeout('Timed out')`. -/
def timedOut : JSVal := .timeout "Timed out"

/-- State of one call of `request`: the closure variable `done`, the state of
the returned promise, the number of calls of `nest.send`, the timers set by
`setTimeout` that have not fired (by the `n` of their attempt) and the
callbacks handed to `nest.send` that the transport has not invoked yet. -/
structure ReqState where
  done : Bool
  settled : Option Outcome
  sends : Nat
  timers : List Nat
  callbacks : List Nat
  deriving DecidableEq, Repr

/-- The functions `resolve` and `reject` of a promise: only the first call
has an effect. -/
def settle (o : Outcome) (s : ReqState) : ReqState :=
  match s.settled with
  | none => { s with settled := some o }
  | some _ => s

/-- The body of `attempt(n)`: one `nest.send` with a fresh callback, one
`setTimeout`. -/
def attempt (n : Nat) (s : ReqState) : ReqState :=
  { s with sends := s.sends + 1, callbacks := s.callbacks ++ [n], timers := s.timers ++ [n] }

/-- The callback passed to `nest.send` (lines 67-71); it is the same closure
body for every attempt. -/
def onCallback (failed value : JSVal) (s : ReqState) : ReqState :=
  let s1 := { s with done := true }
  if truthy failed then settle (.rejected failed) s1 else settle (.resolved value) s1

/-- The function passed to `setTimeout` by `attempt(n)` (lines 74-78). -/
def onTimer (n : Nat) (s : ReqState) : ReqState :=
  if s.done then s
  else if n < 3 then attempt (n + 1) s
  else settle (.rejected timedOut) s

/-- The state right after `request(nest, target, type, content)` returned its
promise: `done = false` and `attempt(1)` has run. -/
def request : ReqState :=
  attempt 1 { done := false, settled := none, sends := 0, timers := [], callbacks := [] }

/-- What the event loop can run next for a request: the transport invoking
the callback of attempt `n` with `(failed, value)`, or the timer of attempt
`n` firing. -/
inductive Event where
  | callback (n : Nat) (failed value : JSVal)
  | timer (n : Nat)
  deriving DecidableEq, Repr

/-- One turn of the event loop. A callback runs when the transport still
holds it (it is invoked at most once), a timer when it is pending; an event
that cannot occur leaves the state as it is. -/
def step (s : ReqState) : Event → ReqState
  | .callback n failed value =>
    if n ∈ s.callbacks then
      onCallback failed value { s with callbacks := s.callbacks.erase n }
    else s
  | .timer n =>
    if n ∈ s.timers then onTimer n { s with timers := s.timers.erase n } else s

/-- Run a sequence of events. -/
def run (s : ReqState) (evs : List Event) : ReqState :=
  evs.foldl step s

/-- An event that is a timer firing. -/
def Event.isTimer : Event → Bool
  | .timer _ => true
  | .callback _ _ _ => false

/-! ## `requestType` (lines 85-99) -/

/-- What a handler hands back when it does not throw: a plain value, or a
promise together with the way that promise is eventually settled (`none`
when it never is). -/
inductive Returned where
  | value (v : JSVal)
  | promise (fate : Option Outcome)
  deriving DecidableEq, Repr

/-- Completion of the call `handler(nest, content, source)`. -/
inductive Completion where
  | normal (r : Returned)
  | throw (err : JSVal)
  deriving DecidableEq, Repr

/-- The arguments of one invocation of the transport-level callback
`callback(failed, value)`; an argument that is not passed is `undefined`. -/
structure Call where
  failed : JSVal
  value : JSVal
  deriving DecidableEq, Repr

/-- `Promise.resolve(x)`: a promise is kept, a plain value gives a promise
fulfilled with it. The result is the eventual state of that promise. -/
def promiseResolve : Returned → Option Outcome
  | .value v => some (.resolved v)
  | .promise fate => fate

/-- `.then(response => callback(null, response), failed => callback(failed))`:
the invocations of `callback` it leads to. -/
def thenCallback : Option Outcome → List Call
  | none => []
  | some (.resolved response) => [⟨.null, response⟩]
  | some (.rejected failed) => [⟨failed, .undefined⟩]

/-- The function that `requestType(name, handler)` passes to
`defineRequestType`: the invocations of `callback` made for one incoming
request `(nest, content, source)`. -/
def requestType {α : Type} (handler : α → JSVal → String → Completion)
    (nest : α) (content : JSVal) (source : String) : List Call :=
  match handler nest content source with
  | .normal r => thenCallback (promiseResolve r)
  | .throw err => [⟨err, .undefined⟩]

/-! ## `findRoute` (lines 167-181) -/

/-- The `connections` map of a nest: name to neighbour list, in insertion
order. -/
abbrev Connections := List (String × List String)

/-- `connections.get(name)`. -/
def Connections.get : Connections → String → Option (List String)
  | [], _ => none
  | (k, v) :: rest, name => if k = name then some v else Connections.get rest name

/-- `connections.get(at) || []`: an array, also an empty one, is truthy. -/
def neighborsOf (connections : Connections) (name : String) : List String :=
  (connections.get name).getD []

/-- An entry `{ at, via }` of the `routes` work list; `via = none` is
`null`. -/
structure Route where
  at_ : String
  via : Option String
  deriving DecidableEq, Repr

/-- `via || next`: `via` unless it is `null` or the empty string. -/
def viaOr (via : Option String) (next : String) : String :=
  match via with
  | some v => if v != "" then v else next
  | none => next

/-- Outcome of the inner `for ... of` loop: it hit `return via`, or it ran
to its end and left the work list `routes`. -/
inductive Scan where
  | found (via : Option String)
  | more (routes : List Route)
  deriving DecidableEq, Repr

/-- The inner loop of `findRoute` over the neighbours of `at`
(lines 171-178). -/
def scan (to_ : String) (via : Option String) : List String → List Route → Scan
  | [], routes => .more routes
  | next :: rest, routes =>
    if next = to_ then .found via
    else if routes.any (fun r => r.at_ = next) then scan to_ via rest routes
    else scan to_ via rest (routes ++ [⟨next, some (viaOr via next)⟩])

/-- Result of a loop run on bounded fuel. -/
inductive Ran (α : Type) where
  | outOfFuel
  | returned (value : α)
  deriving DecidableEq, Repr

/-- The outer loop of `findRoute` (lines 169-180) from index `i`, at most
`fuel` iterations. -/
def findRouteLoop (to_ : String) (connections : Connections) :
    Nat → Nat → List Route → Ran (Option String)
  | 0, _, _ => .outOfFuel
  | fuel + 1, i, routes =>
    match routes.get? i with
    | none => .returned none
    | some r =>
      match scan to_ r.via (neighborsOf connections r.at_) routes with
      | .found via => .returned via
      | .more routes1 => findRouteLoop to_ connections fuel (i + 1) routes1

/-- Every name listed in some neighbour list of the map. -/
def listedNames : Connections → List String
  | [] => []
  | (_, v) :: rest => v ++ listedNames rest

/-- `findRoute(from, to, connections)`; the fuel covers one iteration per
listed name, one for `from` and the last test of `i < routes.length`. -/
def findRoute (from_ to_ : String) (connections : Connections) : Ran (Option String) :=
  findRouteLoop to_ connections ((listedNames connections).length + 2) 0 [⟨from_, none⟩]

/-- Repeatedly replace the current node by what `findRoute` answers for
it, at most `n` times: the nodes passed, the start first, up to the node
for which `findRoute` gives no next hop. -/
def hops (connections : Connections) (to_ : String) : Nat → String → List String
  | 0, cur => [cur]
  | n + 1, cur =>
    match findRoute cur to_ connections with
    | .returned (some v) => cur :: hops connections to_ n v
    | _ => [cur]

/-! ## `routeRequest` (lines 183-191) -/

/-- A nest: its name, its neighbour list and its state bag
(`state.connections`, `state.gossip`). -/
structure Nest where
  name : String
  neighbors : List String
  connections : Connections
  gossip : List JSVal
  deriving DecidableEq, Repr

/-- One call `request(nest, target, type, content)`. -/
structure Request where
  target : String
  type : String
  content : JSVal
  deriving DecidableEq, Repr

/-- The value of the error thrown at line 188, `No route to` followed by
the target. -/
def noRoute (target : String) : JSVal := .error ("No route to " ++ target)

/-- `!via` for a result of `findRoute`. -/
def notVia : Option String → Bool
  | none => true
  | some v => v == ""

/-- How a call of `routeRequest` ends: normally, after the listed calls of
`request`, or by throwing before any call of `request`. -/
inductive Effect where
  | requests (made : List Request)
  | threw (err : JSVal)
  deriving DecidableEq, Repr

/-- `routeRequest(nest, target, type, content)`: the calls of `request` it
makes, or the error it throws. The function has no `return` statement: when
it does not throw, its value is `undefined`. -/
def routeRequest (nest : Nest) (target type : String) (content : JSVal) : Ran Effect :=
  if target ∈ nest.neighbors then
    .returned (.requests [⟨target, type, content⟩])
  else
    match findRoute nest.name target nest.connections with
    | .outOfFuel => .outOfFuel
    | .returned via =>
      if notVia via then .returned (.threw (noRoute target))
      else .returned (.requests [⟨via.getD "", "route", .routeMsg target type content⟩])

/-! ## Specification predicates -/

/-- The states in which no timer will ever issue an attempt again. -/
def Quiet (s : ReqState) : Prop := s.done = true ∨ s.timers = []

/-- Invariant of the states that `request` reaches. -/
structure ReqInv (s : ReqState) : Prop where
  settled_quiet : s.settled ≠ none → Quiet s
  done_settled : s.done = true → s.settled ≠ none
  timers_sends : s.timers = [] ∨ s.timers = [s.sends]
  pending_timer : s.settled = none → s.timers = [s.sends]
  sends_pos : 1 ≤ s.sends
  sends_le : s.sends ≤ 3

/-- The four states a request passes through when only timers fire. -/
def TimerOnly (s : ReqState) : Prop :=
  s = ⟨false, none, 1, [1], [1]⟩ ∨ s = ⟨false, none, 2, [2], [1, 2]⟩ ∨
  s = ⟨false, none, 3, [3], [1, 2, 3]⟩ ∨
  s = ⟨false, some (.rejected timedOut), 3, [], [1, 2, 3]⟩

/-- A walk of `n` edges of the map from `a`: each step goes from a node to
one of the names in its neighbour list. -/
inductive Walk (connections : Connections) (a : String) : String → Nat → Prop where
  | refl : Walk connections a a 0
  | step {b c : String} {n : Nat} : Walk connections a b n →
      c ∈ neighborsOf connections b → Walk connections a c (n + 1)

/-- No name in a neighbour list of the map is the empty string. -/
def NonEmptyNames (connections : Connections) : Prop :=
  ∀ a, ∀ y ∈ neighborsOf connections a, y ≠ ""

/-- What a work-list entry at depth `d` records: its node is `d` edges from
the origin; at depth 0 it is the origin entry; deeper, when names are not
empty, `via` is a neighbour of the origin from which the node is `d - 1`
edges away. -/
def Good (from_ : String) (connections : Connections) (r : Route) (d : Nat) : Prop :=
  Walk connections from_ r.at_ d ∧
  (d = 0 → r = ⟨from_, none⟩) ∧
  (NonEmptyNames connections → ∀ m, d = m + 1 →
    ∃ v, r.via = some v ∧ v ≠ "" ∧ v ∈ neighborsOf connections from_ ∧
      Walk connections v r.at_ m)

/-- Invariant of the work list, each entry paired with its depth, while the
entry of depth `D` is being scanned. -/
structure Lvl (from_ : String) (connections : Connections) (D : Nat)
    (rs : List (Route × Nat)) : Prop where
  nodup : (rs.map (fun p => p.1.at_)).Nodup
  listed : ∀ p ∈ rs, p.1.at_ = from_ ∨ p.1.at_ ∈ listedNames connections
  sorted : rs.Pairwise (fun a b => a.2 ≤ b.2)
  le : ∀ p ∈ rs, p.2 ≤ D + 1
  good : ∀ p ∈ rs, Good from_ connections p.1 p.2

/-- Invariant of the outer loop of `findRoute`: `done` are the entries
before the loop index, `todo` those from the loop index on, each with its
depth; every neighbour of a scanned entry is on the list, at most one level
deeper, and none of them is the target. -/
structure LoopInv (from_ to_ : String) (connections : Connections)
    (done todo : List (Route × Nat)) : Prop where
  root : ∃ p ∈ done ++ todo, p.1.at_ = from_ ∧ p.2 = 0
  lvl : ∃ D, Lvl from_ connections D (done ++ todo) ∧ ∀ p t, todo = p :: t → p.2 = D
  closed : ∀ p ∈ done, ∀ y ∈ neighborsOf connections p.1.at_,
    y ≠ to_ ∧ ∃ q ∈ done ++ todo, q.1.at_ = y ∧ q.2 ≤ p.2 + 1

/-- The shortest walk of one or more edges from `a` to `b` has `d` edges. -/
def Dist (connections : Connections) (a b : String) (d : Nat) : Prop :=
  1 ≤ d ∧ Walk connections a b d ∧ ∀ k, 1 ≤ k → Walk connections a b k → d ≤ k

/-! ## The `route` handler (lines 193-195) -/

/-- Completion of a call of `routeRequest` as its caller sees it: the error
thrown, or the value `undefined`, the function having no `return`
statement. -/
def Effect.completion : Effect → Completion
  | .requests _ => .normal (.value .undefined)
  | .threw err => .throw err

/-- The handler registered for `route`, on the fields `{ target, type,
content }` of its message: it returns what `routeRequest` returns. -/
def routeHandler (nest : Nest) (target type : String) (content : JSVal) : Ran Completion :=
  match routeRequest nest target type content with
  | .outOfFuel => .outOfFuel
  | .returned effect => .returned effect.completion

/-- What a relay reports to the previous hop for a `route` request: the
invocations of the transport-level callback made by the wrapper of
`requestType` around the `route` handler. -/
def routeReply (nest : Nest) (target type : String) (content : JSVal) (source : String) :
    Ran (List Call) :=
  match routeHandler nest target type content with
  | .outOfFuel => .outOfFuel
  | .returned c =>
    .returned (requestType (fun _ _ _ => c) nest (.routeMsg target type content) source)

/-! ## Gossip (lines 117-134) -/

/-- The loop `for (const neighbor of nest.neighbors)` of `sendGossip` and of
`broadcastConnections`: one call of `request` for every entry of the
neighbour list with `neighbor !== exceptFor`; `exceptFor = none` is
`null`. -/
def sendToNeighbors (type : String) (content : JSVal) (exceptFor : Option String) :
    List String → List Request
  | [] => []
  | neighbor :: rest =>
    if some neighbor ≠ exceptFor then
      ⟨neighbor, type, content⟩ :: sendToNeighbors type content exceptFor rest
    else sendToNeighbors type content exceptFor rest

/-- `sendGossip(nest, message, exceptFor)`: the nest afterwards and the calls
of `request` made. -/
def sendGossip (nest : Nest) (message : JSVal) (exceptFor : Option String) :
    Nest × List Request :=
  ({ nest with gossip := nest.gossip ++ [message] },
   sendToNeighbors "gossip" message exceptFor nest.neighbors)

/-- The primitive values: everything that is not built as an object. -/
def isPrimitive : JSVal → Bool
  | .undefined => true
  | .null => true
  | .bool _ => true
  | .nan => true
  | .num _ => true
  | .str _ => true
  | _ => false

/-- `history.includes(message)`, which compares with SameValueZero. A
primitive message is found when an entry has its value. An object message is
found when an entry is that very object; the values of this model carry no
references, so that fact is the input `sameObject`, and an entry that is the
same object has the same content. -/
def includes (sameObject : Bool) (history : List JSVal) (message : JSVal) : Bool :=
  if isPrimitive message then decide (message ∈ history)
  else sameObject && decide (message ∈ history)

/-- The handler registered for `gossip` (lines 130-134): the nest afterwards
and the calls of `request` made. `sameObject` says, for a message that is an
object, whether that very object is an entry of the history; it plays no role
for strings, which is what gossip carries, and other primitive values. -/
def gossipHandler (sameObject : Bool) (nest : Nest) (message : JSVal) (source : String) :
    Nest × List Request :=
  if includes sameObject nest.gossip message then (nest, [])
  else sendGossip nest message (some source)

/-! ## Broadcast of connections (lines 139-163, 197-202) -/

/-- `connections.set(name, neighbors)` for an array `neighbors`: the value of
an existing key is replaced, a new key is added at the end. -/
def Connections.set : Connections → String → List String → Connections
  | [], name, v => [(name, v)]
  | (k, w) :: rest, name, v =>
    if k = name then (k, v) :: rest else (k, w) :: Connections.set rest name v

/-- The map without the key `name`. -/
def Connections.erase : Connections → String → Connections
  | [], _ => []
  | (k, w) :: rest, name =>
    if k = name then Connections.erase rest name else (k, w) :: Connections.erase rest name

/-- `connections.set(name, neighbors)`, where `neighbors` may be `undefined`
(`none`). This file reads the map only through `get`, and a key that holds
`undefined` reads like a key that is missing. -/
def Connections.put (c : Connections) (name : String) : Option (List String) → Connections
  | some v => c.set name v
  | none => c.erase name

/-- `broadcastConnections(nest, name, exceptFor)`: the calls of `request`
made. -/
def broadcastConnections (nest : Nest) (name : String) (exceptFor : Option String) :
    List Request :=
  sendToNeighbors "connections" (.connMsg name (nest.connections.get name)) exceptFor
    nest.neighbors

/-- The handler registered for `connections` (lines 151-163), on the fields
`{ name, neighbors }` of its message. `JSON.stringify` maps `undefined` to
`undefined` and different arrays of strings to different strings, so the
test of line 155 is equality of the two values. -/
def connectionsHandler (nest : Nest) (name : String) (neighbors : Option (List String))
    (source : String) : Nest × List Request :=
  if nest.connections.get name = neighbors then (nest, [])
  else
    ({ nest with connections := nest.connections.put name neighbors },
     broadcastConnections { nest with connections := nest.connections.put name neighbors }
       name (some source))

/-- The function run for every nest at start-up (lines 197-202): a fresh map
with the own entry, then `broadcastConnections(nest, nest.name)`. -/
def connectionsStartup (nest : Nest) : Nest × List Request :=
  ({ nest with connections := [(nest.name, nest.neighbors)] },
   broadcastConnections { nest with connections := [(nest.name, nest.neighbors)] }
     nest.name none)

/-- The function run for every nest at start-up (lines 117-119). -/
def gossipStartup (nest : Nest) : Nest := { nest with gossip := [] }

/-! ## The network -/

/-- A request on its way: the name of the nest that issued it, which the
transport hands to the handler as `source`, and the request. -/
structure Packet where
  source : String
  request : Request
  deriving DecidableEq, Repr

/-- Modelled from the spec: the transport of `crow-tech.js`, which is not
among the sources. The state of the network: the nests, every request issued
so far in order, and the positions in that list of the requests that have
been delivered at least once. -/
structure Net where
  nests : List Nest
  issued : List Packet
  delivered : List Nat
  deriving DecidableEq, Repr

/-- What the arrival of a request does at a nest, for the two flooding
protocols: the handler registered for its type runs on its content. The
transport hands a message on as it is, so that a message that is an object
and has the content of an entry of the history is that entry. Requests of
other types, and `connections` requests whose content is not of the shape
`{ name, neighbors }`, are outside this model of the network and have no
effect in it. -/
def handle (nest : Nest) (r : Request) (source : String) : Nest × List Request :=
  if r.type = "gossip" then gossipHandler true nest r.content source
  else if r.type = "connections" then
    match r.content with
    | .connMsg name neighbors => connectionsHandler nest name neighbors source
    | _ => (nest, [])
  else (nest, [])

/-- Run `f` at the nest named `name`, the first of that name: the nests
afterwards and the requests issued, each with this nest as its source. -/
def callAt (name : String) (f : Nest → Nest × List Request) :
    List Nest → List Nest × List Packet
  | [] => ([], [])
  | n :: rest =>
    if n.name = name then ((f n).1 :: rest, (f n).2.map (Packet.mk n.name))
    else (n :: (callAt name f rest).1, (callAt name f rest).2)

/-- Modelled from the spec: the transport delivers the request at position
`k` of the issued requests to its target, where the handler runs with the
name of the issuing nest as source. A request can be delivered any number of
times, in any order, or never. -/
def deliver (net : Net) (k : Nat) : Net :=
  match net.issued.get? k with
  | none => net
  | some p =>
    { nests := (callAt p.request.target (fun n => handle n p.request p.source) net.nests).1,
      issued := net.issued ++
        (callAt p.request.target (fun n => handle n p.request p.source) net.nests).2,
      delivered := k :: net.delivered }

/-- A sequence of deliveries. -/
def runNet (net : Net) (ks : List Nat) : Net :=
  ks.foldl deliver net

/-- Every issued request has been delivered at least once. -/
def Net.settled (net : Net) : Prop :=
  ∀ k, k < net.issued.length → k ∈ net.delivered

/-- The network right after the single call `sendGossip(origin, message)`,
all gossip histories being empty before it. -/
def gossipStart (nests : List Nest) (origin : String) (message : JSVal) : Net :=
  { nests := (callAt origin (fun n => sendGossip n message none)
      (nests.map gossipStartup)).1,
    issued := (callAt origin (fun n => sendGossip n message none)
      (nests.map gossipStartup)).2,
    delivered := [] }

/-- The requests issued when every nest runs `connectionsStartup`. -/
def startupPackets : List Nest → List Packet
  | [] => []
  | n :: rest => (connectionsStartup n).2.map (Packet.mk n.name) ++ startupPackets rest

/-- Modelled from the spec: `everywhere` of `crow-tech.js`, which is not
among the sources, runs the given function once for every nest. The network
after the start-up of lines 197-202, before any delivery. -/
def connectionsStart (nests : List Nest) : Net :=
  { nests := nests.map (fun n => (connectionsStartup n).1),
    issued := startupPackets nests,
    delivered := [] }

/-- Sum of the lengths of the neighbour lists. -/
def degreeSum (nests : List Nest) : Nat :=
  (nests.map (fun n => n.neighbors.length)).sum

/-- Every pair of a nest and an entry of its neighbour list. With symmetric
neighbour lists every edge of the topology is listed twice, once at each of
its ends. -/
def arcs : List Nest → List (String × String)
  | [] => []
  | n :: rest => n.neighbors.map (fun w => (n.name, w)) ++ arcs rest

/-- The requests issued by the nest `name`, in order. -/
def sentBy (name : String) (issued : List Packet) : List Request :=
  (issued.filter (fun p => p.source = name)).map (fun p => p.request)

/-- Sum of the lengths of the neighbour lists of the nests that have the
message in their gossip history. -/
def spent (message : JSVal) (nests : List Nest) : Nat :=
  (nests.map (fun n => if message ∈ n.gossip then n.neighbors.length else 0)).sum

/-! ## `findRoute` with its work list, and forwarding -/

/-- The inner loop of `findRoute`, like `scan`, together with the work list
at the moment it ends or returns. -/
def scanLog (to_ : String) (via : Option String) : List String → List Route → Scan × List Route
  | [], routes => (.more routes, routes)
  | next :: rest, routes =>
    if next = to_ then (.found via, routes)
    else if routes.any (fun r => r.at_ = next) then scanLog to_ via rest routes
    else scanLog to_ via rest (routes ++ [⟨next, some (viaOr via next)⟩])

/-- What a run of the outer loop of `findRoute` leaves: the value returned,
the work list `routes` at that moment, and the number of times the body of
the outer loop was entered. -/
structure Trace where
  result : Option String
  routes : List Route
  iterations : Nat
  deriving DecidableEq, Repr

/-- The outer loop of `findRoute`, like `findRouteLoop`, keeping the work
list and counting the iterations. -/
def findRouteLog (to_ : String) (connections : Connections) :
    Nat → Nat → List Route → Ran Trace
  | 0, _, _ => .outOfFuel
  | fuel + 1, i, routes =>
    match routes.get? i with
    | none => .returned ⟨none, routes, 0⟩
    | some r =>
      match scanLog to_ r.via (neighborsOf connections r.at_) routes with
      | (.found via, routes1) => .returned ⟨via, routes1, 1⟩
      | (.more _, routes1) =>
        match findRouteLog to_ connections fuel (i + 1) routes1 with
        | .outOfFuel => .outOfFuel
        | .returned t => .returned ⟨t.result, t.routes, t.iterations + 1⟩

/-- Every name that occurs in the map, as a key or in a neighbour list. -/
def mapNames (connections : Connections) : List String :=
  connections.map Prod.fst ++ listedNames connections

/-- The nest `name` when its neighbour list is its entry of the map and it
holds that map as its connections. -/
def nestAt (connections : Connections) (name : String) : Nest :=
  ⟨name, neighborsOf connections name, connections, []⟩

/-- Forwarding by the rule of `routeRequest`, at most `n` hops: the nodes the
message passes, the start first. A node other than the target runs
`routeRequest` with the same `(target, type, content)`, as the `route`
handler does, and the request it issues takes the message to its target. -/
def forward (connections : Connections) (target type : String) (content : JSVal) :
    Nat → String → List String
  | 0, cur => [cur]
  | n + 1, cur =>
    if cur = target then [cur]
    else
      match routeRequest (nestAt connections cur) target type content with
      | .returned (.requests [r]) => cur :: forward connections target type content n r.target
      | _ => [cur]

/-- Shortest-path distance: `d` is the least number of edges of a walk from
`a` to `b`. -/
def Shortest (connections : Connections) (a b : String) (d : Nat) : Prop :=
  Walk connections a b d ∧ ∀ k, Walk connections a b k → d ≤ k

/-- The line A, B, C of three nests, with empty state. -/
def lineABC : List Nest :=
  [⟨"A", ["B"], [], []⟩, ⟨"B", ["A", "C"], [], []⟩, ⟨"C", ["B"], [], []⟩]

/-! ## Handler failures seen by the requester -/

/-- The transport hands the arguments of every invocation of the wrapper's
callback, unchanged, to the completion callback of attempt `n` of the
requester. -/
def answer (s : ReqState) (n : Nat) (calls : List Call) : ReqState :=
  calls.foldl (fun s1 c => step s1 (.callback n c.failed c.value)) s

/-! ## Invariants of the work list and of the network -/

/-- The work list holds no name twice, and only the origin and names listed
in the map. -/
def Tidy (from_ : String) (connections : Connections) (routes : List Route) : Prop :=
  (routes.map (fun r => r.at_)).Nodup ∧
  ∀ r ∈ routes, r.at_ = from_ ∨ r.at_ ∈ listedNames connections

/-- What the flooding of one item needs from the handlers: `K` says that a
nest knows the item, `item` that a request carries it, `ok` that a request is
well formed. Handling a request keeps name and neighbours of the nest, never
loses the item, learns it from a request that carries it, and a nest that
learns it sends it on to every neighbour but the source. -/
structure Flood (K : Nest → Prop) (item ok : Request → Prop) : Prop where
  frame : ∀ n r s, (handle n r s).1.name = n.name ∧ (handle n r s).1.neighbors = n.neighbors
  out_ok : ∀ n r s, ok r → ∀ q ∈ (handle n r s).2, ok q
  mono : ∀ n r s, ok r → K n → K (handle n r s).1
  learn : ∀ n r s, ok r → item r → K (handle n r s).1
  fresh : ∀ n r s, ok r → ¬ K n → K (handle n r s).1 →
    item r ∧ ∀ w ∈ n.neighbors, w ≠ s → ∃ q ∈ (handle n r s).2, q.target = w ∧ item q
  out_item : ∀ n r s, ok r → ∀ q ∈ (handle n r s).2, item q → K (handle n r s).1

/-- Invariant of a network in which one item is flooded. -/
structure FloodInv (K : Nest → Prop) (item ok : Request → Prop) (net : Net) : Prop where
  names_nodup : (net.nests.map (fun n => n.name)).Nodup
  del_lt : ∀ k ∈ net.delivered, k < net.issued.length
  all_ok : ∀ p ∈ net.issued, ok p.request
  src_knows : ∀ p ∈ net.issued, item p.request → ∃ n ∈ net.nests, n.name = p.source ∧ K n
  fan : ∀ v ∈ net.nests, K v → ∀ w ∈ v.neighbors,
    (∃ p ∈ net.issued, p.source = v.name ∧ p.request.target = w ∧ item p.request) ∨
    (∃ n ∈ net.nests, n.name = w ∧ K n)
  got : ∀ k ∈ net.delivered, ∀ p, net.issued.get? k = some p → item p.request →
    ∀ n ∈ net.nests, n.name = p.request.target → K n

/-- The topology: name and neighbour list of every nest. -/
def topology (nests : List Nest) : List (String × List String) :=
  nests.map (fun n => (n.name, n.neighbors))

/-- An edge: `b` is in the neighbour list of the nest named `a`. -/
def Linked (nests : List Nest) (a b : String) : Prop :=
  ∃ v ∈ nests, v.name = a ∧ b ∈ v.neighbors

/-- The nest named `b` can be reached from the nest named `a` along
neighbour lists. -/
def Reach (nests : List Nest) (a b : String) : Prop :=
  Relation.ReflTransGen (Linked nests) a b

/-- Invariant of the flood of the single gossip message `m`: every request
issued is a `gossip` request for `m`; a nest has an empty history and has
sent nothing, or has `m` once and has sent the requests of one call of
`sendGossip`; and the number of requests is covered by the neighbour lists of
the nests that have `m`. -/
structure GossipInv (m : JSVal) (net : Net) : Prop where
  names_nodup : (net.nests.map (fun n => n.name)).Nodup
  pkts : ∀ p ∈ net.issued, p.request.type = "gossip" ∧ p.request.content = m
  sent : ∀ x ∈ net.nests,
    (x.gossip = [] ∧ sentBy x.name net.issued = []) ∨
    (x.gossip = [m] ∧ ∃ ex, sentBy x.name net.issued =
      sendToNeighbors "gossip" m ex x.neighbors)
  total : net.issued.length ≤ spent m net.nests

/-! ## The retry loop of `request` -/

theorem run_nil (s : ReqState) : run s [] = s := rfl

theorem run_cons (s : ReqState) (e : Event) (evs : List Event) :
    run s (e :: evs) = run (step s e) evs := rfl

theorem run_append (s : ReqState) (evs evs' : List Event) :
    run s (evs ++ evs') = run (run s evs) evs' := by
  simp [run, List.foldl_append]

theorem settle_settled_of_some (o o' : Outcome) (s : ReqState) (h : s.settled = some o) :
    (settle o' s).settled = some o := by
  simp [settle, h]

/-- A settled promise stays as it is across one turn of the event loop. -/
theorem step_settled (s : ReqState) (e : Event) (o : Outcome) (h : s.settled = some o) :
    (step s e).settled = some o := by
  cases e with
  | callback n failed value =>
    simp only [step]
    split
    · simp only [onCallback]
      split <;> simp [settle, h]
    · exact h
  | timer n =>
    simp only [step]
    split
    · simp only [onTimer]
      split
      · exact h
      · split
        · simp [attempt, h]
        · simp [settle, h]
    · exact h

theorem run_settled (evs : List Event) (s : ReqState) (o : Outcome) (h : s.settled = some o) :
    (run s evs).settled = some o := by
  induction evs generalizing s with
  | nil => exact h
  | cons e evs ih => exact ih (step s e) (step_settled s e o h)

theorem step_quiet (s : ReqState) (e : Event) (h : Quiet s) :
    Quiet (step s e) ∧ (step s e).sends = s.sends := by
  cases e with
  | callback n failed value =>
    simp only [step]
    split
    · simp only [onCallback]
      split <;> (simp only [settle]; split <;> simp [Quiet])
    · exact ⟨h, rfl⟩
  | timer n =>
    simp only [step]
    split
    · rename_i hn
      rcases h with h | h
      · simp [onTimer, h, Quiet]
      · simp [h] at hn
    · exact ⟨h, rfl⟩

theorem run_quiet (evs : List Event) (s : ReqState) (h : Quiet s) :
    Quiet (run s evs) ∧ (run s evs).sends = s.sends := by
  induction evs generalizing s with
  | nil => exact ⟨h, rfl⟩
  | cons e evs ih =>
    have h1 := step_quiet s e h
    have h2 := ih (step s e) h1.1
    exact ⟨h2.1, h2.2.trans h1.2⟩

theorem reqInv_request : ReqInv request := by
  constructor <;> simp [request, attempt, Quiet]

theorem step_reqInv (s : ReqState) (e : Event) (h : ReqInv s) : ReqInv (step s e) := by
  obtain ⟨h1, h2, h3, h4, h5, h6⟩ := h
  cases e with
  | callback n failed value =>
    simp only [step]
    split
    · simp only [onCallback]
      split <;> (simp only [settle]; split <;>
        (constructor <;> simp_all [Quiet]))
    · exact ⟨h1, h2, h3, h4, h5, h6⟩
  | timer n =>
    simp only [step]
    split
    · rename_i hn
      have hts : s.timers = [s.sends] := by
        rcases h3 with h3 | h3
        · simp [h3] at hn
        · exact h3
      have hns : n = s.sends := by simpa [hts] using hn
      subst hns
      simp only [onTimer]
      split
      · rename_i hd
        constructor <;> simp_all [Quiet]
      · rename_i hd
        have hset : s.settled = none := by
          by_contra hc
          rcases h1 hc with hq | hq
          · exact hd hq
          · simp [hq] at hts
        split
        · rename_i hlt
          constructor <;> simp_all [attempt, Quiet]
          omega
        · simp only [settle, hset]
          constructor <;> simp_all [Quiet]
    · exact ⟨h1, h2, h3, h4, h5, h6⟩

theorem run_reqInv (evs : List Event) (s : ReqState) (h : ReqInv s) : ReqInv (run s evs) := by
  induction evs generalizing s with
  | nil => exact h
  | cons e evs ih => exact ih (step s e) (step_reqInv s e h)

theorem onCallback_settled_of_none (failed value : JSVal) (s : ReqState)
    (h : s.settled = none) :
    (onCallback failed value s).settled =
      some (if truthy failed then .rejected failed else .resolved value) := by
  simp only [onCallback]
  split <;> simp [settle, h]

theorem onCallback_quiet (failed value : JSVal) (s : ReqState) :
    Quiet (onCallback failed value s) ∧ (onCallback failed value s).sends = s.sends := by
  simp only [onCallback]
  split <;> (simp only [settle]; split <;> simp [Quiet])

theorem step_timerOnly (s : ReqState) (n : Nat) (h : TimerOnly s) :
    TimerOnly (step s (.timer n)) := by
  rcases h with h | h | h | h <;> subst h
  · by_cases hn : n = 1
    · subst hn; right; left; decide
    · left; simp [step, hn]
  · by_cases hn : n = 2
    · subst hn; right; right; left; decide
    · right; left; simp [step, hn]
  · by_cases hn : n = 3
    · subst hn; right; right; right; decide
    · right; right; left; simp [step, hn]
  · right; right; right; simp [step]

theorem run_timerOnly (evs : List Event) (s : ReqState) (h : TimerOnly s)
    (ht : ∀ e ∈ evs, e.isTimer = true) : TimerOnly (run s evs) := by
  induction evs generalizing s with
  | nil => exact h
  | cons e evs ih =>
    have he := ht e (List.mem_cons_self e evs)
    cases e with
    | callback n failed value => simp [Event.isTimer] at he
    | timer n =>
      exact ih _ (step_timerOnly s n h) (fun e1 h1 => ht e1 (List.mem_cons_of_mem _ h1))

/-- C1, as amended: when the callback of attempt `n` fires with a falsy
`failed` and value `v` before the timer of attempt `n`, and the request is
still pending (no callback of any attempt has fired before), the request is
resolved with exactly `v`, stays so, and the number of calls of `nest.send`
stays `n`, whatever happens afterwards. -/
theorem request_success_callback (evs evs' : List Event) (n : Nat) (failed v : JSVal)
    (hpending : (run request evs).settled = none)
    (hcb : n ∈ (run request evs).callbacks)
    (htimer : n ∈ (run request evs).timers)
    (hok : truthy failed = false) :
    (run request (evs ++ .callback n failed v :: evs')).settled = some (.resolved v) ∧
    (run request (evs ++ .callback n failed v :: evs')).sends = n ∧
    (run request evs).sends = n ∧ 1 ≤ n ∧ n ≤ 3 := by
  have hinv := run_reqInv evs request reqInv_request
  have hts := hinv.pending_timer hpending
  have hn : n = (run request evs).sends := by simpa [hts] using htimer
  rw [run_append, run_cons]
  have hstep : step (run request evs) (.callback n failed v) =
      onCallback failed v { run request evs with
        callbacks := (run request evs).callbacks.erase n } := by
    simp [step, hcb]
  have hq := onCallback_quiet failed v { run request evs with
        callbacks := (run request evs).callbacks.erase n }
  have hs := onCallback_settled_of_none failed v { run request evs with
        callbacks := (run request evs).callbacks.erase n } hpending
  rw [hok] at hs
  rw [hstep]
  refine ⟨run_settled evs' _ _ (by simpa using hs), ?_, hn.symm, ?_, ?_⟩
  · rw [(run_quiet evs' _ hq.1).2, hq.2, hn]
  · rw [hn]; exact hinv.sends_pos
  · rw [hn]; exact hinv.sends_le

/-- Witness of `request_success_callback`: the second attempt is answered
with `(null, "v")` before its timer. -/
theorem request_success_callback_witness :
    (run request ([.timer 1] ++ .callback 2 .null (.str "v") ::
      [.timer 2, .callback 1 (.str "e") .undefined])).settled = some (.resolved (.str "v")) ∧
    (run request ([.timer 1] ++ .callback 2 .null (.str "v") ::
      [.timer 2, .callback 1 (.str "e") .undefined])).sends = 2 ∧
    (run request [.timer 1]).sends = 2 ∧ 1 ≤ 2 ∧ 2 ≤ 3 :=
  request_success_callback [.timer 1] [.timer 2, .callback 1 (.str "e") .undefined] 2
    .null (.str "v") (by decide) (by decide) (by decide) (by decide)

/-- C1 as stated fails: after the first attempt timed out, its late callback
rejects the request with `"e"`; the callback of attempt 2 then fires with
`(null, "v")` before the timer of attempt 2, and the request is not resolved
with `"v"`. -/
theorem request_success_callback_counterexample :
    2 ∈ (run request [.timer 1, .callback 1 (.str "e") .undefined]).callbacks ∧
    2 ∈ (run request [.timer 1, .callback 1 (.str "e") .undefined]).timers ∧
    truthy .null = false ∧
    (run request [.timer 1, .callback 1 (.str "e") .undefined,
      .callback 2 .null (.str "v")]).settled = some (.rejected (.str "e")) ∧
    (run request [.timer 1, .callback 1 (.str "e") .undefined,
      .callback 2 .null (.str "v")]).settled ≠ some (.resolved (.str "v")) := by
  decide

/-- C2: when no callback is ever invoked, so that only timers fire, the
request is pending with the timer of its latest attempt running, or every
timer has fired; in the latter case `nest.send` was called exactly 3 times,
for the attempts 1, 2 and 3, and the request is rejected with the `Timeout`
error, and while a timer is still to fire the request has not failed. The three timers firing in turn
lead there. -/
theorem request_no_callback_times_out (evs : List Event)
    (honly : ∀ e ∈ evs, e.isTimer = true) :
    (run request evs).sends ≤ 3 ∧
    ((run request evs).timers = [] →
      (run request evs).sends = 3 ∧ (run request evs).callbacks = [1, 2, 3] ∧
      (run request evs).settled = some (.rejected timedOut)) ∧
    ((run request evs).timers ≠ [] →
      (run request evs).settled = none ∧
      (run request evs).timers = [(run request evs).sends]) ∧
    (run request [.timer 1, .timer 2]).settled = none ∧
    (run request [.timer 1, .timer 2, .timer 3]).timers = [] := by
  have h := run_timerOnly evs request (Or.inl rfl) honly
  refine ⟨?_, ?_, ?_, by decide, by decide⟩
  · rcases h with h | h | h | h <;> rw [h] <;> decide
  · rcases h with h | h | h | h <;> rw [h] <;> decide
  · rcases h with h | h | h | h <;> rw [h] <;> decide

/-- Witness of `request_no_callback_times_out`: the three timers fire. -/
theorem request_no_callback_times_out_witness :
    (run request [.timer 1, .timer 2, .timer 3]).sends = 3 ∧
    (run request [.timer 1, .timer 2, .timer 3]).callbacks = [1, 2, 3] ∧
    (run request [.timer 1, .timer 2, .timer 3]).settled = some (.rejected timedOut) :=
  ((request_no_callback_times_out [.timer 1, .timer 2, .timer 3] (by decide)).2.1
    (by decide))

/-- C3: once the promise of a request is settled with an outcome (a value, a
failure reason or the `Timeout` error), no later sequence of callbacks and
timers changes that outcome. -/
theorem request_outcome_set_once (evs evs' : List Event) (o : Outcome)
    (h : (run request evs).settled = some o) :
    (run request (evs ++ evs')).settled = some o := by
  rw [run_append]
  exact run_settled evs' _ o h

/-- Witness of `request_outcome_set_once`: callbacks that arrive after the
final `Timeout`. -/
theorem request_outcome_set_once_witness :
    (run request ([.timer 1, .timer 2, .timer 3] ++
      [.callback 1 .null (.str "late"), .callback 3 (.str "e") .undefined])).settled =
      some (.rejected timedOut) :=
  request_outcome_set_once [.timer 1, .timer 2, .timer 3]
    [.callback 1 .null (.str "late"), .callback 3 (.str "e") .undefined]
    (.rejected timedOut) (by decide)

/-- C4 as stated fails: attempt 1 has timed out and attempt 2 is issued; the
late callback of attempt 1 resolves the pending request, and the third
attempt that the timer of attempt 2 would have made is not made. -/
theorem late_callback_counterexample :
    1 ∈ (run request [.timer 1]).callbacks ∧
    (run request [.timer 1]).sends = 2 ∧
    (run request [.timer 1]).settled = none ∧
    (run request [.timer 1, .callback 1 .null (.str "v")]).settled =
      some (.resolved (.str "v")) ∧
    (run request [.timer 1, .timer 2]).sends = 3 ∧
    (run request [.timer 1, .callback 1 .null (.str "v"), .timer 2]).sends = 2 := by
  decide

/-- C4, as amended: a callback that arrives late, for a superseded attempt `k`,
is ignored only when the request is already settled: then the outcome and the
number of sends are what they are without it. While the request is pending
it settles the request with what it reports and no further attempt is
made. -/
theorem late_callback (evs evs' : List Event) (k : Nat) (failed value : JSVal)
    (hk : k ∈ (run request evs).callbacks) :
    ((run request evs).settled = none →
      (run request (evs ++ .callback k failed value :: evs')).settled =
        some (if truthy failed then .rejected failed else .resolved value) ∧
      (run request (evs ++ .callback k failed value :: evs')).sends =
        (run request evs).sends) ∧
    (∀ o, (run request evs).settled = some o →
      (run request (evs ++ .callback k failed value :: evs')).settled = some o ∧
      (run request (evs ++ evs')).settled = some o ∧
      (run request (evs ++ .callback k failed value :: evs')).sends =
        (run request (evs ++ evs')).sends) := by
  have hinv := run_reqInv evs request reqInv_request
  have hstep : step (run request evs) (.callback k failed value) =
      onCallback failed value { run request evs with
        callbacks := (run request evs).callbacks.erase k } := by
    simp [step, hk]
  have hq := onCallback_quiet failed value { run request evs with
        callbacks := (run request evs).callbacks.erase k }
  constructor
  · intro hnone
    have hs := onCallback_settled_of_none failed value { run request evs with
        callbacks := (run request evs).callbacks.erase k } hnone
    rw [run_append, run_cons, hstep]
    exact ⟨run_settled evs' _ _ hs, by rw [(run_quiet evs' _ hq.1).2, hq.2]⟩
  · intro o ho
    have hquiet := hinv.settled_quiet (by simp [ho])
    rw [run_append, run_cons, run_append]
    refine ⟨run_settled evs' _ _ (step_settled _ _ o ho), run_settled evs' _ _ ho, ?_⟩
    rw [hstep, (run_quiet evs' _ hq.1).2, hq.2, (run_quiet evs' _ hquiet).2]

/-- Witness of `late_callback`: the late callback of attempt 1 after
attempt 2 was issued, first while the request is pending, then after the
callback of attempt 2 has rejected it. -/
theorem late_callback_witness :
    ((run request ([.timer 1] ++ .callback 1 .null (.str "v") :: [.timer 2])).settled =
        some (if truthy .null then .rejected .null else .resolved (.str "v")) ∧
      (run request ([.timer 1] ++ .callback 1 .null (.str "v") :: [.timer 2])).sends =
        (run request [.timer 1]).sends) ∧
    ((run request ([.timer 1, .callback 2 (.str "e") .undefined] ++
        .callback 1 .null (.str "v") :: [.timer 2])).settled = some (.rejected (.str "e")) ∧
      (run request ([.timer 1, .callback 2 (.str "e") .undefined] ++ [.timer 2])).settled =
        some (.rejected (.str "e")) ∧
      (run request ([.timer 1, .callback 2 (.str "e") .undefined] ++
        .callback 1 .null (.str "v") :: [.timer 2])).sends =
        (run request ([.timer 1, .callback 2 (.str "e") .undefined] ++ [.timer 2])).sends) :=
  ⟨(late_callback [.timer 1] [.timer 2] 1 .null (.str "v") (by decide)).1 (by decide),
   (late_callback [.timer 1, .callback 2 (.str "e") .undefined] [.timer 2] 1 .null (.str "v")
      (by decide)).2 (.rejected (.str "e")) (by decide)⟩

/-! ## The breadth-first search of `findRoute` -/

theorem Walk.cons {connections : Connections} {a b c : String} {n : Nat}
    (hab : b ∈ neighborsOf connections a) (h : Walk connections b c n) :
    Walk connections a c (n + 1) := by
  induction h with
  | refl => exact Walk.step Walk.refl hab
  | step _ hc ih => exact Walk.step ih hc

theorem Walk.last {connections : Connections} {a c : String} {n : Nat}
    (h : Walk connections a c (n + 1)) :
    ∃ b, Walk connections a b n ∧ c ∈ neighborsOf connections b := by
  cases h with
  | step h1 h2 => exact ⟨_, h1, h2⟩

theorem Walk.first {connections : Connections} {a c : String} {n : Nat}
    (h : Walk connections a c (n + 1)) :
    ∃ b, b ∈ neighborsOf connections a ∧ Walk connections b c n := by
  induction n generalizing c with
  | zero =>
    obtain ⟨b, hb, hc⟩ := h.last
    cases hb
    exact ⟨c, hc, Walk.refl⟩
  | succ n ih =>
    obtain ⟨b, hb, hc⟩ := h.last
    obtain ⟨x, hx, hxb⟩ := ih hb
    exact ⟨x, hx, Walk.step hxb hc⟩

theorem Walk.zero_eq {connections : Connections} {a c : String}
    (h : Walk connections a c 0) : c = a := by
  cases h; rfl

theorem get_mem_listedNames (connections : Connections) (a : String) (v : List String)
    (h : connections.get a = some v) : ∀ y ∈ v, y ∈ listedNames connections := by
  induction connections with
  | nil => simp [Connections.get] at h
  | cons kv rest ih =>
    obtain ⟨k, w⟩ := kv
    intro y hy
    simp only [Connections.get] at h
    simp only [listedNames, List.mem_append]
    split at h
    · simp only [Option.some.injEq] at h
      subst h
      exact Or.inl hy
    · exact Or.inr (ih h y hy)

theorem neighborsOf_listed (connections : Connections) (a y : String)
    (h : y ∈ neighborsOf connections a) : y ∈ listedNames connections := by
  unfold neighborsOf at h
  cases hg : connections.get a with
  | none => simp [hg] at h
  | some v =>
    rw [hg] at h
    exact get_mem_listedNames connections a v hg y h

/-- A new entry pushed while the entry `r` of depth `D` is scanned. -/
theorem good_push (from_ : String) (connections : Connections) (r : Route) (D : Nat)
    (y : String) (hr : Good from_ connections r D)
    (hy : y ∈ neighborsOf connections r.at_) :
    Good from_ connections ⟨y, some (viaOr r.via y)⟩ (D + 1) := by
  obtain ⟨hw, h0, hv⟩ := hr
  refine ⟨Walk.step hw hy, by simp, ?_⟩
  intro hne m hm
  have hmD : m = D := by omega
  subst hmD
  cases m with
  | zero =>
    have hr0 := h0 rfl
    subst hr0
    exact ⟨y, by simp [viaOr], hne _ y hy, hy, Walk.refl⟩
  | succ k =>
    obtain ⟨v, hvia, hvne, hvn, hvw⟩ := hv hne k rfl
    refine ⟨v, ?_, hvne, hvn, Walk.step hvw hy⟩
    simp [viaOr, hvia, hvne]

theorem lvl_push (from_ : String) (connections : Connections) (D : Nat)
    (rs : List (Route × Nat)) (r : Route) (y : String)
    (h : Lvl from_ connections D rs) (hr : Good from_ connections r D)
    (hy : y ∈ neighborsOf connections r.at_)
    (hnew : ∀ p ∈ rs, p.1.at_ ≠ y) :
    Lvl from_ connections D (rs ++ [(⟨y, some (viaOr r.via y)⟩, D + 1)]) := by
  obtain ⟨h1, h2, h3, h4, h5⟩ := h
  constructor
  · rw [List.map_append, List.nodup_append]
    refine ⟨h1, by simp, ?_⟩
    intro a ha hb
    simp only [List.map_cons, List.map_nil, List.mem_singleton] at hb
    subst hb
    obtain ⟨p, hp, hpa⟩ := List.mem_map.1 ha
    exact hnew p hp hpa
  · intro p hp
    rcases List.mem_append.1 hp with hp | hp
    · exact h2 p hp
    · simp only [List.mem_singleton] at hp
      subst hp
      exact Or.inr (neighborsOf_listed connections _ y hy)
  · rw [List.pairwise_append]
    refine ⟨h3, by simp, ?_⟩
    intro a ha b hb
    simp only [List.mem_singleton] at hb
    subst hb
    exact h4 a ha
  · intro p hp
    rcases List.mem_append.1 hp with hp | hp
    · exact h4 p hp
    · simp only [List.mem_singleton] at hp
      subst hp
      exact le_refl _
  · intro p hp
    rcases List.mem_append.1 hp with hp | hp
    · exact h5 p hp
    · simp only [List.mem_singleton] at hp
      subst hp
      exact good_push from_ connections r D y hr hy

/-- The inner loop: it returns the `via` of the scanned entry when the
target is among the neighbours, and otherwise extends the work list by
entries one level deeper so that every neighbour is on it. -/
theorem scan_spec (from_ to_ : String) (connections : Connections) (r : Route) (D : Nat)
    (hr : Good from_ connections r D) (ns : List String) :
    ∀ rs : List (Route × Nat), Lvl from_ connections D rs →
      (∀ y ∈ ns, y ∈ neighborsOf connections r.at_) →
      (to_ ∈ ns ∧ scan to_ r.via ns (rs.map Prod.fst) = .found r.via) ∨
      (to_ ∉ ns ∧ ∃ extra, scan to_ r.via ns (rs.map Prod.fst) =
          .more ((rs ++ extra).map Prod.fst) ∧
        Lvl from_ connections D (rs ++ extra) ∧
        ∀ y ∈ ns, ∃ q ∈ rs ++ extra, q.1.at_ = y) := by
  induction ns with
  | nil =>
    intro rs h _
    exact Or.inr ⟨by simp, [], by simp [scan], by simpa using h, by simp⟩
  | cons y ns ih =>
    intro rs h hns
    have hy := hns y (List.mem_cons_self y ns)
    have hns1 : ∀ z ∈ ns, z ∈ neighborsOf connections r.at_ :=
      fun z hz => hns z (List.mem_cons_of_mem y hz)
    by_cases hto : y = to_
    · left
      exact ⟨by simp [hto], by simp [scan, hto]⟩
    · by_cases hany : (rs.map Prod.fst).any (fun r => r.at_ = y) = true
      · have hscan : scan to_ r.via (y :: ns) (rs.map Prod.fst) =
            scan to_ r.via ns (rs.map Prod.fst) := by
          simp only [scan, hto, if_false, hany, if_true]
        rcases ih rs h hns1 with ⟨h1, h2⟩ | ⟨h1, extra, h2, h3, h4⟩
        · left
          exact ⟨List.mem_cons_of_mem y h1, by rw [hscan, h2]⟩
        · right
          refine ⟨?_, extra, by rw [hscan, h2], h3, ?_⟩
          · simp only [List.mem_cons, not_or]
            exact ⟨fun hc => hto hc.symm, h1⟩
          · intro z hz
            rcases List.mem_cons.1 hz with hz | hz
            · subst hz
              simp only [List.any_eq_true, List.mem_map, decide_eq_true_eq] at hany
              obtain ⟨x, ⟨q, hq, hqx⟩, hx⟩ := hany
              exact ⟨q, List.mem_append_left _ hq, by rw [hqx]; exact hx⟩
            · exact h4 z hz
      · have hnew : ∀ p ∈ rs, p.1.at_ ≠ y := by
          intro p hp hc
          apply hany
          simp only [List.any_eq_true, List.mem_map, decide_eq_true_eq]
          exact ⟨p.1, ⟨p, hp, rfl⟩, hc⟩
        have hscan : scan to_ r.via (y :: ns) (rs.map Prod.fst) =
            scan to_ r.via ns
              ((rs ++ [(Route.mk y (some (viaOr r.via y)), D + 1)]).map Prod.fst) := by
          simp only [scan, hto, if_false, hany, List.map_append, List.map_cons, List.map_nil]
          simp
        have hl := lvl_push from_ connections D rs r y h hr hy hnew
        rcases ih _ hl hns1 with ⟨h1, h2⟩ | ⟨h1, extra, h2, h3, h4⟩
        · left
          exact ⟨List.mem_cons_of_mem y h1, by rw [hscan, h2]⟩
        · right
          refine ⟨?_, (Route.mk y (some (viaOr r.via y)), D + 1) :: extra, ?_, ?_, ?_⟩
          · simp only [List.mem_cons, not_or]
            exact ⟨fun hc => hto hc.symm, h1⟩
          · rw [hscan, h2]
            simp
          · simpa using h3
          · intro z hz
            rcases List.mem_cons.1 hz with hz | hz
            · subst hz
              exact ⟨(Route.mk z (some (viaOr r.via z)), D + 1), by simp, rfl⟩
            · obtain ⟨q, hq, hqz⟩ := h4 z hz
              exact ⟨q, by simpa using hq, hqz⟩

theorem lvl_length_le (from_ : String) (connections : Connections) (D : Nat)
    (rs : List (Route × Nat)) (h : Lvl from_ connections D rs) :
    rs.length ≤ (listedNames connections).length + 1 := by
  have hsub : rs.map (fun p => p.1.at_) ⊆ from_ :: listedNames connections := by
    intro a ha
    obtain ⟨p, hp, hpa⟩ := List.mem_map.1 ha
    subst hpa
    rcases h.listed p hp with h1 | h1
    · simp [h1]
    · exact List.mem_cons_of_mem _ h1
  have hlen := (List.Nodup.subperm h.nodup hsub).length_le
  simpa using hlen

theorem lvl_mono (from_ : String) (connections : Connections) (D D1 : Nat)
    (rs : List (Route × Nat)) (h : Lvl from_ connections D rs) (hD : D ≤ D1) :
    Lvl from_ connections D1 rs :=
  ⟨h.nodup, h.listed, h.sorted, fun p hp => le_trans (h.le p hp) (by omega), h.good⟩

theorem mem_done_of_lt (done todo : List (Route × Nat)) (q : Route × Nat)
    (hs : (done ++ todo).Pairwise (fun a b => a.2 ≤ b.2)) (hq : q ∈ done ++ todo)
    (hlt : ∀ p t, todo = p :: t → q.2 < p.2) : q ∈ done := by
  rcases List.mem_append.1 hq with h | h
  · exact h
  · exfalso
    cases todo with
    | nil => simp at h
    | cons p t =>
      have hp := hlt p t rfl
      rw [List.pairwise_append] at hs
      have hpt := hs.2.1
      rw [List.pairwise_cons] at hpt
      rcases List.mem_cons.1 h with h | h
      · subst h; omega
      · have := hpt.1 q h
        omega

/-- Every node fewer edges from the origin than the depth of the entry about
to be scanned has already been scanned. -/
theorem cover (from_ to_ : String) (connections : Connections)
    (done todo : List (Route × Nat)) (h : LoopInv from_ to_ connections done todo)
    (n : Nat) (x : String) (hw : Walk connections from_ x n)
    (hlt : ∀ p t, todo = p :: t → n < p.2) :
    ∃ q ∈ done, q.1.at_ = x ∧ q.2 ≤ n := by
  obtain ⟨D, hl, _⟩ := h.lvl
  induction hw with
  | refl =>
    obtain ⟨p, hp, hpa, hp0⟩ := h.root
    exact ⟨p, mem_done_of_lt done todo p hl.sorted hp
      (fun p1 t ht => by rw [hp0]; exact hlt p1 t ht), hpa, by omega⟩
  | step hw1 hc ih =>
    rename_i b c m
    obtain ⟨q, hq, hqa, hqm⟩ := ih (fun p t ht => by have := hlt p t ht; omega)
    obtain ⟨_, q1, hq1, hq1a, hq1m⟩ := h.closed q hq c (by rw [hqa]; exact hc)
    exact ⟨q1, mem_done_of_lt done todo q1 hl.sorted hq1
      (fun p t ht => by have := hlt p t ht; omega), hq1a, by omega⟩

/-- No walk of one or more edges to the target is shorter than the depth of
the entry about to be scanned, plus one. -/
theorem cover_target (from_ to_ : String) (connections : Connections)
    (done todo : List (Route × Nat)) (h : LoopInv from_ to_ connections done todo)
    (n : Nat) (hw : Walk connections from_ to_ (n + 1))
    (hlt : ∀ p t, todo = p :: t → n < p.2) : False := by
  obtain ⟨b, hb, hc⟩ := hw.last
  obtain ⟨q, hq, hqa, _⟩ := cover from_ to_ connections done todo h n b hb hlt
  exact (h.closed q hq to_ (by rw [hqa]; exact hc)).1 rfl

theorem loopInv_init (from_ to_ : String) (connections : Connections) :
    LoopInv from_ to_ connections [] [(⟨from_, none⟩, 0)] := by
  refine ⟨⟨(⟨from_, none⟩, 0), by simp, rfl, rfl⟩, ⟨0, ⟨by simp, by simp, by simp, by simp, ?_⟩, ?_⟩, by simp⟩
  · intro p hp
    simp only [List.nil_append, List.mem_singleton] at hp
    subst hp
    exact ⟨Walk.refl, fun _ => rfl, fun _ m hm => by omega⟩
  · intro p t ht
    simp only [List.cons.injEq] at ht
    rw [← ht.1]

theorem loopInv_next (from_ to_ : String) (connections : Connections)
    (done t extra : List (Route × Nat)) (p : Route × Nat)
    (h : LoopInv from_ to_ connections done (p :: t))
    (hl : Lvl from_ connections p.2 ((done ++ p :: t) ++ extra))
    (hto : to_ ∉ neighborsOf connections p.1.at_)
    (hall : ∀ y ∈ neighborsOf connections p.1.at_,
      ∃ q ∈ (done ++ p :: t) ++ extra, q.1.at_ = y) :
    LoopInv from_ to_ connections (done ++ [p]) (t ++ extra) := by
  have heq : (done ++ [p]) ++ (t ++ extra) = (done ++ p :: t) ++ extra := by simp
  obtain ⟨p0, hp0, hp0a⟩ := h.root
  refine ⟨⟨p0, by rw [heq]; exact List.mem_append_left _ hp0, hp0a⟩, ?_, ?_⟩
  · rw [heq]
    cases hte : t ++ extra with
    | nil => exact ⟨p.2, hl, fun p1 t1 ht1 => by simp at ht1⟩
    | cons p1 t1 =>
      refine ⟨p1.2, lvl_mono _ _ _ _ _ hl ?_, fun p2 t2 ht2 => ?_⟩
      · have hs := hl.sorted
        have heq2 : (done ++ p :: t) ++ extra = done ++ (p :: (p1 :: t1)) := by
          rw [← hte]; simp
        rw [heq2, List.pairwise_append] at hs
        have := hs.2.1
        rw [List.pairwise_cons] at this
        exact this.1 p1 (by simp)
      · simp only [List.cons.injEq] at ht2
        rw [← ht2.1]
  · intro q hq y hy
    rw [heq]
    rcases List.mem_append.1 hq with hq | hq
    · obtain ⟨h1, q1, hq1, h2⟩ := h.closed q hq y hy
      exact ⟨h1, q1, List.mem_append_left _ hq1, h2⟩
    · simp only [List.mem_singleton] at hq
      subst hq
      refine ⟨fun hc => hto (hc ▸ hy), ?_⟩
      obtain ⟨q1, hq1, hq1a⟩ := hall y hy
      exact ⟨q1, hq1, hq1a, hl.le q1 hq1⟩

theorem getElem?_done (done todo : List (Route × Nat)) :
    ((done ++ todo).map Prod.fst).get? done.length = todo.head?.map Prod.fst := by
  rw [List.get?_eq_getElem?, List.getElem?_map,
    List.getElem?_append_right (le_refl _), Nat.sub_self]
  cases todo <;> simp

/-- What the outer loop of `findRoute` returns, given enough fuel: nothing
when no walk of one or more edges leads to the target, and otherwise the
`via` of the first entry on the work list that has the target among its
neighbours, an entry whose depth no walk to the target undercuts. -/
theorem loop_spec (from_ to_ : String) (connections : Connections) :
    ∀ (fuel : Nat) (done todo : List (Route × Nat)),
      LoopInv from_ to_ connections done todo →
      (listedNames connections).length + 2 ≤ fuel + done.length →
      (findRouteLoop to_ connections fuel done.length ((done ++ todo).map Prod.fst) =
          .returned none ∧ ∀ n, ¬ Walk connections from_ to_ (n + 1)) ∨
      (∃ r D, findRouteLoop to_ connections fuel done.length
            ((done ++ todo).map Prod.fst) = .returned r.via ∧
          Good from_ connections r D ∧ to_ ∈ neighborsOf connections r.at_ ∧
          ∀ n, Walk connections from_ to_ (n + 1) → D ≤ n) := by
  intro fuel
  induction fuel with
  | zero =>
    intro done todo h hf
    exfalso
    obtain ⟨D, hl, _⟩ := h.lvl
    have := lvl_length_le _ _ _ _ hl
    simp only [List.length_append] at this
    omega
  | succ fuel ih =>
    intro done todo h hf
    obtain ⟨D, hl, hD⟩ := h.lvl
    cases todo with
    | nil =>
      left
      refine ⟨?_, fun n hw => cover_target _ _ _ _ _ h n hw (by simp)⟩
      simp [findRouteLoop]
    | cons p t =>
      have hDp := hD p t rfl
      subst hDp
      have hgood := hl.good p (by simp)
      have hget := getElem?_done done (p :: t)
      simp only [List.head?_cons, Option.map_some'] at hget
      rcases scan_spec from_ to_ connections p.1 p.2 hgood
          (neighborsOf connections p.1.at_) (done ++ p :: t) hl (fun y hy => hy) with
        ⟨h1, h2⟩ | ⟨h1, extra, h2, h3, h4⟩
      · right
        refine ⟨p.1, p.2, ?_, hgood, h1, ?_⟩
        · simp only [findRouteLoop, hget, h2]
        · intro n hw
          by_contra hlt
          exact cover_target _ _ _ _ _ h n hw
            (fun p1 t1 ht1 => by
              simp only [List.cons.injEq] at ht1
              rw [← ht1.1]; omega)
      · have hnext := loopInv_next from_ to_ connections done t extra p h h3 h1 h4
        have hrec := ih (done ++ [p]) (t ++ extra) hnext
          (by simp only [List.length_append, List.length_singleton]; omega)
        have hloop : findRouteLoop to_ connections (fuel + 1) done.length
            ((done ++ p :: t).map Prod.fst) =
            findRouteLoop to_ connections fuel (done ++ [p]).length
              (((done ++ [p]) ++ (t ++ extra)).map Prod.fst) := by
          simp only [findRouteLoop, hget, h2, List.length_append, List.length_singleton]
          simp
        rw [hloop]
        exact hrec

/-- What `findRoute` returns. -/
theorem findRoute_spec (from_ to_ : String) (connections : Connections) :
    (findRoute from_ to_ connections = .returned none ∧
        ∀ n, ¬ Walk connections from_ to_ (n + 1)) ∨
    (∃ r D, findRoute from_ to_ connections = .returned r.via ∧
        Good from_ connections r D ∧ to_ ∈ neighborsOf connections r.at_ ∧
        ∀ n, Walk connections from_ to_ (n + 1) → D ≤ n) := by
  have h := loop_spec from_ to_ connections ((listedNames connections).length + 2) []
    [(⟨from_, none⟩, 0)] (loopInv_init from_ to_ connections) (by simp)
  simpa [findRoute] using h

theorem findRoute_total (from_ to_ : String) (connections : Connections) :
    ∃ via, findRoute from_ to_ connections = .returned via := by
  rcases findRoute_spec from_ to_ connections with ⟨h, _⟩ | ⟨r, D, h, _⟩
  · exact ⟨none, h⟩
  · exact ⟨r.via, h⟩

theorem findRoute_direct (from_ to_ : String) (connections : Connections)
    (h : to_ ∈ neighborsOf connections from_) :
    findRoute from_ to_ connections = .returned none := by
  rcases findRoute_spec from_ to_ connections with ⟨h1, _⟩ | ⟨r, D, h1, hg, _, hmin⟩
  · exact h1
  · have hD := hmin 0 (Walk.step Walk.refl h)
    have hD0 : D = 0 := by omega
    subst hD0
    have hr := hg.2.1 rfl
    rw [h1, hr]

theorem walk_one (connections : Connections) (a b : String)
    (h : Walk connections a b 1) : b ∈ neighborsOf connections a := by
  obtain ⟨c, hc, hb⟩ := h.last
  have := hc.zero_eq
  subst this
  exact hb

theorem dist_unique (connections : Connections) (a b : String) (d e : Nat)
    (hd : Dist connections a b d) (he : Dist connections a b e) : d = e := by
  have h1 := hd.2.2 e he.1 he.2.1
  have h2 := he.2.2 d hd.1 hd.2.1
  omega

theorem dist_exists (connections : Connections) (a b : String) (n : Nat)
    (h : Walk connections a b (n + 1)) : ∃ d, Dist connections a b (d + 1) := by
  classical
  have hex : ∃ k, Walk connections a b (k + 1) := ⟨n, h⟩
  refine ⟨Nat.find hex, by omega, Nat.find_spec hex, ?_⟩
  intro k hk hw
  obtain ⟨j, rfl⟩ : ∃ j, k = j + 1 := ⟨k - 1, by omega⟩
  have := Nat.find_min' hex hw
  omega

/-- The next hop: when names are not empty and the target is two or more
edges away, `findRoute` returns a neighbour of the origin that is one edge
closer to the target. -/
theorem findRoute_next_hop (from_ to_ : String) (connections : Connections)
    (hne : NonEmptyNames connections) (d : Nat)
    (hd : Dist connections from_ to_ (d + 2)) :
    ∃ v, findRoute from_ to_ connections = .returned (some v) ∧
      v ∈ neighborsOf connections from_ ∧ Dist connections v to_ (d + 1) := by
  obtain ⟨_, hw, hmin⟩ := hd
  rcases findRoute_spec from_ to_ connections with ⟨_, h2⟩ | ⟨r, D, h1, hg, hto, hlow⟩
  · exact absurd hw (h2 (d + 1))
  · have hDle : D ≤ d + 1 := hlow (d + 1) hw
    have hDge : d + 2 ≤ D + 1 := hmin (D + 1) (by omega) (Walk.step hg.1 hto)
    have hD : D = d + 1 := by omega
    subst hD
    obtain ⟨v, hvia, _, hvn, hvw⟩ := hg.2.2 hne d rfl
    refine ⟨v, by rw [h1, hvia], hvn, by omega, Walk.step hvw hto, ?_⟩
    intro k hk hkw
    obtain ⟨j, rfl⟩ : ∃ j, k = j + 1 := ⟨k - 1, by omega⟩
    have := hmin (j + 2) (by omega) (Walk.cons hvn hkw)
    omega

theorem hops_of_none (connections : Connections) (to_ cur : String)
    (h : findRoute cur to_ connections = .returned none) (m : Nat) :
    hops connections to_ m cur = [cur] := by
  cases m with
  | zero => rfl
  | succ m => simp [hops, h]

/-- Following `findRoute` from a node whose shortest walk to the target has
`d + 1` edges. -/
theorem hops_spec (to_ : String) (connections : Connections)
    (hne : NonEmptyNames connections) (d : Nat) :
    ∀ cur, Dist connections cur to_ (d + 1) →
      ∃ path last, (∀ m, d ≤ m → hops connections to_ m cur = path) ∧
        path.length = d + 1 ∧ path.head? = some cur ∧ path.getLast? = some last ∧
        to_ ∈ neighborsOf connections last ∧
        (∀ x ∈ path, ∃ e, e ≤ d + 1 ∧ Dist connections x to_ e) ∧
        path.Nodup ∧
        path.Chain' (fun a b => b ∈ neighborsOf connections a ∧
          findRoute a to_ connections = .returned (some b)) := by
  induction d with
  | zero =>
    intro cur hd
    have hn := walk_one connections cur to_ hd.2.1
    have hf := findRoute_direct cur to_ connections hn
    refine ⟨[cur], cur, fun m _ => hops_of_none connections to_ cur hf m, rfl, rfl, rfl,
      hn, ?_, by simp, by simp⟩
    intro x hx
    simp only [List.mem_singleton] at hx
    subst hx
    exact ⟨1, le_refl _, hd⟩
  | succ d ih =>
    intro cur hd
    obtain ⟨v, hv, hvn, hvd⟩ := findRoute_next_hop cur to_ connections hne d hd
    obtain ⟨path, last, hp, hlen, hhead, hlast, hto, hall, hnd, hch⟩ := ih v hvd
    refine ⟨cur :: path, last, ?_, by simp [hlen], rfl, ?_, hto, ?_, ?_, ?_⟩
    · intro m hm
      obtain ⟨j, rfl⟩ : ∃ j, m = j + 1 := ⟨m - 1, by omega⟩
      simp only [hops, hv]
      rw [hp j (by omega)]
    · cases path with
      | nil => simp at hlen
      | cons a t => simpa [List.getLast?_cons_cons] using hlast
    · intro x hx
      rcases List.mem_cons.1 hx with hx | hx
      · subst hx
        exact ⟨d + 2, le_refl _, hd⟩
      · obtain ⟨e, he, hxe⟩ := hall x hx
        exact ⟨e, by omega, hxe⟩
    · rw [List.nodup_cons]
      refine ⟨?_, hnd⟩
      intro hc
      obtain ⟨e, he, hce⟩ := hall cur hc
      have := dist_unique connections cur to_ _ _ hd hce
      omega
    · cases path with
      | nil => simp at hlen
      | cons a t =>
        simp only [List.head?_cons, Option.some.injEq] at hhead
        subst hhead
        exact List.Chain'.cons ⟨hvn, hv⟩ hch

/-! ## `requestType`, `findRoute` and `routeRequest` -/

theorem nonEmptyNames_of_listed (connections : Connections)
    (h : ∀ y ∈ listedNames connections, y ≠ "") : NonEmptyNames connections :=
  fun a y hy => h y (neighborsOf_listed connections a y hy)

theorem no_walk_of_not_listed (connections : Connections) (a b : String)
    (h : b ∉ listedNames connections) : ∀ n, ¬ Walk connections a b (n + 1) := by
  intro n hw
  obtain ⟨c, _, hc⟩ := hw.last
  exact h (neighborsOf_listed connections c b hc)

/-- C5: for one incoming request the wrapper installed by `requestType`
invokes the callback with `(null, v)` when the handler returns `v` or its
promise is fulfilled with `v`, and with `(e)` when the handler throws `e` or
its promise is rejected with `e`, each time exactly once; it never invokes
it more than once, and no invocation carries both a failure and a value. -/
theorem requestType_calls_back_once {α : Type} (handler : α → JSVal → String → Completion)
    (nest : α) (content : JSVal) (source : String) :
    (∀ v, handler nest content source = .normal (.value v) →
      requestType handler nest content source = [⟨.null, v⟩]) ∧
    (∀ v, handler nest content source = .normal (.promise (some (.resolved v))) →
      requestType handler nest content source = [⟨.null, v⟩]) ∧
    (∀ e, handler nest content source = .throw e →
      requestType handler nest content source = [⟨e, .undefined⟩]) ∧
    (∀ e, handler nest content source = .normal (.promise (some (.rejected e))) →
      requestType handler nest content source = [⟨e, .undefined⟩]) ∧
    (requestType handler nest content source).length ≤ 1 ∧
    ∀ c ∈ requestType handler nest content source, c.failed = .null ∨ c.value = .undefined := by
  refine ⟨?_, ?_, ?_, ?_, ?_, ?_⟩
  · intro v h; simp [requestType, h, promiseResolve, thenCallback]
  · intro v h; simp [requestType, h, promiseResolve, thenCallback]
  · intro e h; simp [requestType, h]
  · intro e h; simp [requestType, h, promiseResolve, thenCallback]
  · unfold requestType
    cases handler nest content source with
    | throw err => simp
    | normal r =>
      cases r with
      | value v => simp [promiseResolve, thenCallback]
      | promise fate =>
        cases fate with
        | none => simp [promiseResolve, thenCallback]
        | some o => cases o <;> simp [promiseResolve, thenCallback]
  · unfold requestType
    cases handler nest content source with
    | throw err => simp
    | normal r =>
      cases r with
      | value v => simp [promiseResolve, thenCallback]
      | promise fate =>
        cases fate with
        | none => simp [promiseResolve, thenCallback]
        | some o => cases o <;> simp [promiseResolve, thenCallback]

/-- C6 as stated fails. In the map `A: [B], B: [A]` the node `B` is one edge
from `A` and `findRoute` returns nothing for it. In the map
`A: [""], "": [X], X: [B]` it returns `X`, which is not a neighbour of `A`,
and from `X` it returns nothing, so that the iteration stops at `X`. -/
theorem findRoute_reaches_counterexample :
    Walk [("A", ["B"]), ("B", ["A"])] "A" "B" 1 ∧
    findRoute "A" "B" [("A", ["B"]), ("B", ["A"])] = .returned none ∧
    hops [("A", ["B"]), ("B", ["A"])] "B" 4 "A" = ["A"] ∧
    findRoute "A" "B" [("A", [""]), ("", ["X"]), ("X", ["B"])] = .returned (some "X") ∧
    "X" ∉ neighborsOf [("A", [""]), ("", ["X"]), ("X", ["B"])] "A" ∧
    findRoute "X" "B" [("A", [""]), ("", ["X"]), ("X", ["B"])] = .returned none := by
  exact ⟨Walk.step Walk.refl (by decide), by decide, by decide, by decide, by decide,
    by decide⟩

/-- C6, as amended: let no name in the map be empty and let `to` be
reachable from `from` by one or more edges. When `to` is in the neighbour
list of `from`, `findRoute` returns nothing (that case is left to
`routeRequest`); otherwise it returns a neighbour of `from`. Repeatedly
replacing the current node by what `findRoute` returns for it, starting
from `from`, passes along edges of the map, visits no node twice and after
finitely many hops stops at a node that has `to` in its neighbour list. -/
theorem findRoute_reaches (from_ to_ : String) (connections : Connections)
    (hne : NonEmptyNames connections) (n : Nat)
    (hreach : Walk connections from_ to_ (n + 1)) :
    (to_ ∈ neighborsOf connections from_ →
      findRoute from_ to_ connections = .returned none) ∧
    (to_ ∉ neighborsOf connections from_ →
      ∃ v, findRoute from_ to_ connections = .returned (some v) ∧
        v ∈ neighborsOf connections from_) ∧
    ∃ path last, (∀ m, path.length ≤ m + 1 → hops connections to_ m from_ = path) ∧
      path.head? = some from_ ∧ path.getLast? = some last ∧
      to_ ∈ neighborsOf connections last ∧ path.Nodup ∧
      path.Chain' (fun a b => b ∈ neighborsOf connections a ∧
        findRoute a to_ connections = .returned (some b)) := by
  obtain ⟨d, hd⟩ := dist_exists connections from_ to_ n hreach
  refine ⟨findRoute_direct from_ to_ connections, ?_, ?_⟩
  · intro hnot
    cases d with
    | zero => exact absurd (walk_one connections from_ to_ hd.2.1) hnot
    | succ d =>
      obtain ⟨v, hv, hvn, _⟩ := findRoute_next_hop from_ to_ connections hne d hd
      exact ⟨v, hv, hvn⟩
  · obtain ⟨path, last, hp, hlen, hhead, hlast, hto, _, hnd, hch⟩ :=
      hops_spec to_ connections hne d from_ hd
    exact ⟨path, last, fun m hm => hp m (by omega), hhead, hlast, hto, hnd, hch⟩

/-- Witness of `findRoute_reaches`: from `A` to `C` on the line A, B, C. -/
theorem findRoute_reaches_witness :
    ∃ v, findRoute "A" "C" [("A", ["B"]), ("B", ["A", "C"]), ("C", ["B"])] =
        .returned (some v) ∧
      v ∈ neighborsOf [("A", ["B"]), ("B", ["A", "C"]), ("C", ["B"])] "A" :=
  (findRoute_reaches "A" "C" [("A", ["B"]), ("B", ["A", "C"]), ("C", ["B"])]
    (nonEmptyNames_of_listed _ (by decide)) 1
    (Walk.step (Walk.step (Walk.refl : Walk _ "A" "A" 0)
      (by decide : "B" ∈ neighborsOf _ "A")) (by decide))).2.1 (by decide)

/-- C7 as stated fails: `B` is listed among the neighbours of `A`, and
`findRoute` returns nothing, not `B`. -/
theorem findRoute_neighbor_counterexample :
    "B" ∈ neighborsOf [("A", ["B"]), ("B", ["A"])] "A" ∧
    findRoute "A" "B" [("A", ["B"]), ("B", ["A"])] = .returned none ∧
    findRoute "A" "B" [("A", ["B"]), ("B", ["A"])] ≠ .returned (some "B") := by
  decide

/-- C7, as amended: when `to` is listed among the neighbours of `from` in
the map, `findRoute(from, to, map)` returns the `via` of the origin entry,
which is nothing. -/
theorem findRoute_neighbor_returns_none (from_ to_ : String) (connections : Connections)
    (h : to_ ∈ neighborsOf connections from_) :
    findRoute from_ to_ connections = .returned none :=
  findRoute_direct from_ to_ connections h

/-- Witness of `findRoute_neighbor_returns_none`. -/
theorem findRoute_neighbor_returns_none_witness :
    "C" ∈ neighborsOf [("A", ["B"]), ("B", ["A", "C"]), ("C", ["B"])] "B" ∧
    findRoute "B" "C" [("A", ["B"]), ("B", ["A", "C"]), ("C", ["B"])] = .returned none :=
  ⟨by decide, findRoute_neighbor_returns_none "B" "C" _ (by decide)⟩

/-- C8: when no walk of one or more edges of the map leads from `from` to
`to`, `findRoute(from, to, map)` returns nothing. -/
theorem findRoute_unreachable (from_ to_ : String) (connections : Connections)
    (h : ∀ n, ¬ Walk connections from_ to_ (n + 1)) :
    findRoute from_ to_ connections = .returned none := by
  rcases findRoute_spec from_ to_ connections with ⟨h1, _⟩ | ⟨r, D, _, hg, hto, _⟩
  · exact h1
  · exact absurd (Walk.step hg.1 hto) (h D)

/-- Witness of `findRoute_unreachable`: the node `D` has no neighbours and
nobody lists it; and a start node without an entry. -/
theorem findRoute_unreachable_witness :
    findRoute "A" "D" [("A", ["B"]), ("B", ["A"]), ("D", [])] = .returned none ∧
    findRoute "Z" "A" [("A", ["B"]), ("B", ["A"]), ("D", [])] = .returned none :=
  ⟨findRoute_unreachable "A" "D" _ (no_walk_of_not_listed _ _ _ (by decide)),
   findRoute_unreachable "Z" "A" _ (by
    intro n hw
    obtain ⟨b, hb, _⟩ := hw.first
    simp [neighborsOf, Connections.get] at hb)⟩

/-- C9 as stated fails: `B` is not a neighbour of the nest `A`, `findRoute`
returns the next hop `""`, and `routeRequest` throws instead of sending a
`route` request to it. -/
theorem routeRequest_issues_counterexample :
    "B" ∉ (Nest.mk "A" [""] [("A", [""]), ("", ["B"])] []).neighbors ∧
    findRoute "A" "B" [("A", [""]), ("", ["B"])] = .returned (some "") ∧
    routeRequest (Nest.mk "A" [""] [("A", [""]), ("", ["B"])] []) "B" "note" (.str "hi") ≠
      .returned (.requests [⟨"", "route", .routeMsg "B" "note" (.str "hi")⟩]) := by
  decide

/-- C9, as amended: when `target` is in the neighbour list of the nest,
`routeRequest` makes exactly one call of `request`, to `target` with the
given type and content; otherwise, when `findRoute` returns a next hop `v`
that is not the empty string, it makes exactly one call of `request`, of
type `route`, to `v`, carrying `(target, type, content)`. -/
theorem routeRequest_issues (nest : Nest) (target type : String) (content : JSVal) :
    (target ∈ nest.neighbors →
      routeRequest nest target type content = .returned (.requests [⟨target, type, content⟩])) ∧
    (∀ v, target ∉ nest.neighbors →
      findRoute nest.name target nest.connections = .returned (some v) → v ≠ "" →
      routeRequest nest target type content =
        .returned (.requests [⟨v, "route", .routeMsg target type content⟩])) := by
  constructor
  · intro h
    simp [routeRequest, h]
  · intro v h hv hne
    simp [routeRequest, h, hv, notVia, hne]

/-- Witness of `routeRequest_issues`: the nest `A` of the line A, B, C sends
to its neighbour `B` directly and to `C` through `B`. -/
theorem routeRequest_issues_witness :
    routeRequest (Nest.mk "A" ["B"] [("A", ["B"]), ("B", ["A", "C"]), ("C", ["B"])] [])
      "B" "ping" .null = .returned (.requests [⟨"B", "ping", .null⟩]) ∧
    routeRequest (Nest.mk "A" ["B"] [("A", ["B"]), ("B", ["A", "C"]), ("C", ["B"])] [])
      "C" "ping" .null = .returned (.requests [⟨"B", "route", .routeMsg "C" "ping" .null⟩]) :=
  ⟨(routeRequest_issues _ "B" "ping" .null).1 (by decide),
   (routeRequest_issues _ "C" "ping" .null).2 "B" (by decide) (by decide) (by decide)⟩

/-- C10 as stated fails: `routeRequest` throws the `No route` error although
`findRoute` returned a next hop, the empty string. -/
theorem routeRequest_noRoute_counterexample :
    findRoute "A" "C" [("A", [""]), ("", ["A", "C"])] ≠ .returned none ∧
    routeRequest (Nest.mk "A" [""] [("A", [""]), ("", ["A", "C"])] []) "C" "ping" .null =
      .returned (.threw (noRoute "C")) := by
  decide

/-- C10, as amended: `routeRequest` always returns or throws; it throws, the
`No route` error and without any call of `request`, exactly when `target` is
not in the neighbour list of the nest and `findRoute` returns nothing or the
empty string; it throws no other error. -/
theorem routeRequest_noRoute_iff (nest : Nest) (target type : String) (content : JSVal) :
    (∃ res, routeRequest nest target type content = .returned res) ∧
    (routeRequest nest target type content = .returned (.threw (noRoute target)) ↔
      target ∉ nest.neighbors ∧
      (findRoute nest.name target nest.connections = .returned none ∨
       findRoute nest.name target nest.connections = .returned (some ""))) ∧
    (∀ e, routeRequest nest target type content = .returned (.threw e) →
      e = noRoute target) := by
  obtain ⟨via, hvia⟩ := findRoute_total nest.name target nest.connections
  by_cases h : target ∈ nest.neighbors
  · simp [routeRequest, h]
  · cases via with
    | none => simp [routeRequest, h, hvia, notVia]
    | some v =>
      by_cases hv : v = ""
      · subst hv
        simp [routeRequest, h, hvia, notVia]
      · simp [routeRequest, h, hvia, notVia, hv]

/-! ## Handlers: `gossip`, `connections`, `route`, and handler failures -/

theorem sendToNeighbors_eq (type : String) (content : JSVal) (exceptFor : Option String)
    (ns : List String) :
    sendToNeighbors type content exceptFor ns =
      (ns.filter (fun n => some n ≠ exceptFor)).map (fun n => ⟨n, type, content⟩) := by
  induction ns with
  | nil => rfl
  | cons n ns ih =>
    by_cases h : some n = exceptFor
    · simp [sendToNeighbors, h, ih]
    · simp [sendToNeighbors, h, ih]

theorem sendToNeighbors_count (type : String) (content : JSVal) (exceptFor : Option String)
    (ns : List String) (x : String) :
    ((sendToNeighbors type content exceptFor ns).filter (fun r => r.target = x)).length =
      if some x = exceptFor then 0 else ns.count x := by
  induction ns with
  | nil => simp [sendToNeighbors]
  | cons n ns ih =>
    by_cases h : some n = exceptFor
    · simp only [sendToNeighbors, h, ne_eq, not_true_eq_false, if_false, ih]
      split
      · rfl
      · rename_i hx
        have hnx : n ≠ x := fun hc => hx (hc ▸ h)
        simp [List.count_cons, hnx]
    · by_cases hnx : n = x
      · subst hnx
        simp [sendToNeighbors, h, ih, List.count_cons]
      · have hne : (n == x) = false := by simpa using hnx
        simp only [sendToNeighbors, h, ne_eq, not_false_eq_true, if_true, List.filter_cons,
          hnx, decide_False, List.count_cons, hne]
        simpa using ih

theorem sendToNeighbors_mem (type : String) (content : JSVal) (exceptFor : Option String)
    (ns : List String) (r : Request) (h : r ∈ sendToNeighbors type content exceptFor ns) :
    r.type = type ∧ r.content = content ∧ r.target ∈ ns ∧ some r.target ≠ exceptFor := by
  rw [sendToNeighbors_eq] at h
  obtain ⟨n, hn, rfl⟩ := List.mem_map.1 h
  simp only [List.mem_filter, decide_eq_true_eq] at hn
  exact ⟨rfl, rfl, hn.1, hn.2⟩

/-- C12: `sendGossip(nest, message, exceptFor)` leaves the gossip history
equal to the old one with `message` appended at its end, whether or not it
was there before, leaves name, neighbour list and connections as they are,
and calls `request` once, with type `gossip` and content `message`, for every
entry of the neighbour list that differs from `exceptFor`, and not for
`exceptFor`. -/
theorem sendGossip_effect (nest : Nest) (message : JSVal) (exceptFor : Option String) :
    (sendGossip nest message exceptFor).1 =
      ⟨nest.name, nest.neighbors, nest.connections, nest.gossip ++ [message]⟩ ∧
    (sendGossip nest message exceptFor).2 =
      (nest.neighbors.filter (fun n => some n ≠ exceptFor)).map
        (fun n => ⟨n, "gossip", message⟩) ∧
    (∀ r ∈ (sendGossip nest message exceptFor).2,
      r.type = "gossip" ∧ r.content = message ∧ r.target ∈ nest.neighbors ∧
        some r.target ≠ exceptFor) ∧
    ∀ x, ((sendGossip nest message exceptFor).2.filter (fun r => r.target = x)).length =
      if some x = exceptFor then 0 else nest.neighbors.count x := by
  refine ⟨rfl, sendToNeighbors_eq _ _ _ _, ?_, ?_⟩
  · intro r hr
    exact sendToNeighbors_mem _ _ _ _ r hr
  · intro x
    exact sendToNeighbors_count _ _ _ _ x

theorem includes_true (history : List JSVal) (message : JSVal) :
    includes true history message = decide (message ∈ history) := by
  unfold includes
  split <;> simp

theorem includes_primitive (b : Bool) (history : List JSVal) (message : JSVal)
    (h : isPrimitive message = true) :
    includes b history message = decide (message ∈ history) := by
  simp [includes, h]

theorem gossipHandler_true (nest : Nest) (message : JSVal) (source : String) :
    gossipHandler true nest message source =
      if message ∈ nest.gossip then (nest, []) else sendGossip nest message (some source) := by
  simp [gossipHandler, includes_true]

/-- C13: when `includes` finds the message in the gossip history of the
nest, the `gossip` handler changes nothing and issues no request. Otherwise
it does what `sendGossip(nest, message, source)` does: the message is
appended to the history, the rest of the nest stays as it is, and `request`
is called once, with type `gossip` and the message, for every entry of the
neighbour list that differs from the sender, and not for the sender. After
the handler has run the message is in the history, so handling the same
message a second time changes nothing and issues no request. For a primitive
message, such as a string, `includes` is membership by value. -/
theorem gossipHandler_effect (sameObject : Bool) (nest : Nest) (message : JSVal)
    (source source2 : String) :
    (includes sameObject nest.gossip message = true →
      gossipHandler sameObject nest message source = (nest, [])) ∧
    (includes sameObject nest.gossip message = false →
      gossipHandler sameObject nest message source = sendGossip nest message (some source) ∧
      (gossipHandler sameObject nest message source).1 =
        ⟨nest.name, nest.neighbors, nest.connections, nest.gossip ++ [message]⟩ ∧
      (gossipHandler sameObject nest message source).2 =
        (nest.neighbors.filter (fun n => n ≠ source)).map
          (fun n => ⟨n, "gossip", message⟩) ∧
      ∀ x, ((gossipHandler sameObject nest message source).2.filter
          (fun r => r.target = x)).length =
        if x = source then 0 else nest.neighbors.count x) ∧
    includes true (gossipHandler sameObject nest message source).1.gossip message = true ∧
    gossipHandler true (gossipHandler sameObject nest message source).1 message source2 =
      ((gossipHandler sameObject nest message source).1, []) ∧
    (isPrimitive message = true →
      (∀ b, includes b nest.gossip message = decide (message ∈ nest.gossip)) ∧
      ∀ b, gossipHandler b (gossipHandler sameObject nest message source).1 message source2 =
        ((gossipHandler sameObject nest message source).1, [])) := by
  have hafter : message ∈ (gossipHandler sameObject nest message source).1.gossip := by
    unfold gossipHandler
    cases hinc : includes sameObject nest.gossip message with
    | true =>
      simp only [if_true]
      unfold includes at hinc
      split at hinc
      · simpa using hinc
      · simp only [Bool.and_eq_true, decide_eq_true_eq] at hinc
        exact hinc.2
    | false => simp [sendGossip]
  refine ⟨fun h => by simp [gossipHandler, h], ?_, ?_, ?_, ?_⟩
  · intro h
    have hg : gossipHandler sameObject nest message source =
        sendGossip nest message (some source) := by simp [gossipHandler, h]
    refine ⟨hg, by rw [hg]; rfl, ?_, ?_⟩
    · rw [hg]
      simp only [sendGossip, sendToNeighbors_eq]
      simp
    · intro x
      rw [hg]
      have := sendToNeighbors_count "gossip" message (some source) nest.neighbors x
      simpa [sendGossip] using this
  · rw [includes_true]
    simpa using hafter
  · rw [gossipHandler_true]
    simp [hafter]
  · intro hp
    refine ⟨fun b => includes_primitive b _ _ hp, fun b => ?_⟩
    have hinc : includes b (gossipHandler sameObject nest message source).1.gossip message =
        true := by
      rw [includes_primitive b _ _ hp]
      simpa using hafter
    generalize gossipHandler sameObject nest message source = first at hinc ⊢
    simp [gossipHandler, hinc]

/-- Witness of `gossipHandler_effect`: the nest `B` of the line A, B, C hears
`"hi"` from `A` for the first time. -/
theorem gossipHandler_effect_witness :
    gossipHandler true ⟨"B", ["A", "C"], [], []⟩ (.str "hi") "A" =
      (⟨"B", ["A", "C"], [], [.str "hi"]⟩, [⟨"C", "gossip", .str "hi"⟩]) ∧
    (gossipHandler true ⟨"B", ["A", "C"], [], []⟩ (.str "hi") "A").2 =
      (["A", "C"].filter (fun n => n ≠ "A")).map (fun n => ⟨n, "gossip", .str "hi"⟩) ∧
    gossipHandler true ⟨"B", ["A", "C"], [], [.str "hi"]⟩ (.str "hi") "C" =
      (⟨"B", ["A", "C"], [], [.str "hi"]⟩, []) :=
  ⟨by decide,
   ((gossipHandler_effect true ⟨"B", ["A", "C"], [], []⟩ (.str "hi") "A" "C").2.1
      (by decide)).2.2.1,
   (gossipHandler_effect true ⟨"B", ["A", "C"], [], [.str "hi"]⟩ (.str "hi") "C" "A").1
      (by decide)⟩

theorem get_set_eq (c : Connections) (name : String) (v : List String) :
    (c.set name v).get name = some v := by
  induction c with
  | nil => simp [Connections.set, Connections.get]
  | cons kw rest ih =>
    obtain ⟨k, w⟩ := kw
    by_cases h : k = name
    · simp [Connections.set, Connections.get, h]
    · simp [Connections.set, Connections.get, h, ih]

theorem get_set_ne (c : Connections) (name other : String) (v : List String)
    (h : other ≠ name) : (c.set name v).get other = c.get other := by
  induction c with
  | nil => simp [Connections.set, Connections.get, h.symm]
  | cons kw rest ih =>
    obtain ⟨k, w⟩ := kw
    by_cases hk : k = name
    · subst hk
      simp [Connections.set, Connections.get, h.symm]
    · by_cases hko : k = other
      · subst hko
        simp [Connections.set, Connections.get, hk]
      · simp [Connections.set, Connections.get, hk, hko, ih]

theorem get_erase_eq (c : Connections) (name : String) : (c.erase name).get name = none := by
  induction c with
  | nil => simp [Connections.erase, Connections.get]
  | cons kw rest ih =>
    obtain ⟨k, w⟩ := kw
    by_cases h : k = name
    · simp [Connections.erase, h, ih]
    · simp [Connections.erase, Connections.get, h, ih]

theorem get_erase_ne (c : Connections) (name other : String) (h : other ≠ name) :
    (c.erase name).get other = c.get other := by
  induction c with
  | nil => simp [Connections.erase, Connections.get]
  | cons kw rest ih =>
    obtain ⟨k, w⟩ := kw
    by_cases hk : k = name
    · subst hk
      simp [Connections.erase, Connections.get, h.symm, ih]
    · by_cases hko : k = other
      · subst hko
        simp [Connections.erase, Connections.get, hk]
      · simp [Connections.erase, Connections.get, hk, hko, ih]

theorem get_put_eq (c : Connections) (name : String) (v : Option (List String)) :
    (c.put name v).get name = v := by
  cases v with
  | none => exact get_erase_eq c name
  | some l => exact get_set_eq c name l

theorem get_put_ne (c : Connections) (name other : String) (v : Option (List String))
    (h : other ≠ name) : (c.put name v).get other = c.get other := by
  cases v with
  | none => exact get_erase_ne c name other h
  | some l => exact get_set_ne c name other l h

/-- C16: when the entry for `name` in the connections of the nest is the
list `neighbours`, same elements in the same order, the `connections` handler
changes nothing and issues no request; otherwise, the entry being absent or
a different list, it sets the entry for `name` to `neighbours`, leaves every
other entry and the rest of the nest as they are, and calls `request` once,
with type `connections` and content `(name, neighbours)`, for every entry of
the neighbour list that differs from the sender. -/
theorem connectionsHandler_effect (nest : Nest) (name : String) (neighbours : List String)
    (source : String) :
    (nest.connections.get name = some neighbours →
      connectionsHandler nest name (some neighbours) source = (nest, [])) ∧
    (nest.connections.get name ≠ some neighbours →
      (connectionsHandler nest name (some neighbours) source).1 =
        ⟨nest.name, nest.neighbors, nest.connections.set name neighbours, nest.gossip⟩ ∧
      (nest.connections.set name neighbours).get name = some neighbours ∧
      (∀ other, other ≠ name →
        (nest.connections.set name neighbours).get other = nest.connections.get other) ∧
      (connectionsHandler nest name (some neighbours) source).2 =
        (nest.neighbors.filter (fun n => n ≠ source)).map
          (fun n => ⟨n, "connections", .connMsg name (some neighbours)⟩)) := by
  constructor
  · intro h
    simp [connectionsHandler, h]
  · intro h
    refine ⟨by simp [connectionsHandler, h, Connections.put], get_set_eq _ _ _,
      fun other ho => get_set_ne _ _ _ _ ho, ?_⟩
    simp only [connectionsHandler, h, if_false, broadcastConnections, Connections.put,
      get_set_eq, sendToNeighbors_eq]
    simp

/-- Witness of `connectionsHandler_effect`: the nest `B` of the line A, B, C
first hears of the neighbours of `C` from `C`, then hears the same again. -/
theorem connectionsHandler_effect_witness :
    connectionsHandler ⟨"B", ["A", "C"], [("B", ["A", "C"]), ("C", ["B"])], []⟩ "C"
      (some ["B"]) "C" = (⟨"B", ["A", "C"], [("B", ["A", "C"]), ("C", ["B"])], []⟩, []) ∧
    (connectionsHandler ⟨"B", ["A", "C"], [("B", ["A", "C"])], []⟩ "C" (some ["B"]) "C").2 =
      (["A", "C"].filter (fun n => n ≠ "C")).map
        (fun n => ⟨n, "connections", .connMsg "C" (some ["B"])⟩) :=
  ⟨(connectionsHandler_effect ⟨"B", ["A", "C"], [("B", ["A", "C"]), ("C", ["B"])], []⟩ "C"
      ["B"] "C").1 (by decide),
   ((connectionsHandler_effect ⟨"B", ["A", "C"], [("B", ["A", "C"])], []⟩ "C"
      ["B"] "C").2 (by decide)).2.2.2⟩

/-- A call of `routeRequest` that issues a request gives its caller
`undefined`, and the relay that runs it for a `route` request reports
`(null, undefined)` to the previous hop at once, whatever becomes of the
request issued. -/
theorem routeReply_of_requests (nest : Nest) (target type : String) (content : JSVal)
    (source : String) (made : List Request)
    (h : routeRequest nest target type content = .returned (.requests made)) :
    routeHandler nest target type content = .returned (.normal (.value .undefined)) ∧
    routeReply nest target type content source = .returned [⟨.null, .undefined⟩] := by
  have h1 : routeHandler nest target type content =
      .returned (.normal (.value .undefined)) := by
    simp [routeHandler, h, Effect.completion]
  exact ⟨h1, by simp [routeReply, h1, requestType, promiseResolve, thenCallback]⟩

/-- C11 fails on the code. On the line A, B, C the call
`routeRequest(A, 'C', 'ping', null)` issues a `route` request to `B` and
gives its caller `undefined`, not the `'pong'` of `C`; the relay `B`
forwards a `ping` to `C` and reports `(null, undefined)` to `A` without
waiting for the outcome of that request. -/
theorem routeRequest_result_not_propagated :
    routeRequest ⟨"A", ["B"], [("A", ["B"]), ("B", ["A", "C"]), ("C", ["B"])], []⟩
      "C" "ping" .null =
        .returned (.requests [⟨"B", "route", .routeMsg "C" "ping" .null⟩]) ∧
    routeHandler ⟨"A", ["B"], [("A", ["B"]), ("B", ["A", "C"]), ("C", ["B"])], []⟩
      "C" "ping" .null = .returned (.normal (.value .undefined)) ∧
    routeRequest ⟨"B", ["A", "C"], [("A", ["B"]), ("B", ["A", "C"]), ("C", ["B"])], []⟩
      "C" "ping" .null = .returned (.requests [⟨"C", "ping", .null⟩]) ∧
    routeReply ⟨"B", ["A", "C"], [("A", ["B"]), ("B", ["A", "C"]), ("C", ["B"])], []⟩
      "C" "ping" .null "A" = .returned [⟨.null, .undefined⟩] ∧
    requestType (fun (_ : Nest) _ _ => .normal (.value (.str "pong")))
      ⟨"C", ["B"], [("A", ["B"]), ("B", ["A", "C"]), ("C", ["B"])], []⟩ .null "B" =
        [⟨.null, .str "pong"⟩] := by
  decide

theorem answer_single (s : ReqState) (n : Nat) (c : Call) :
    answer s n [c] = step s (.callback n c.failed c.value) := rfl

/-- C19 as stated fails: the handler throws `null`, or its promise is
rejected with `0`, and the request of the requester is resolved with
`undefined`. -/
theorem handler_failure_counterexample :
    (answer request 1
      (requestType (fun (_ : Unit) _ _ => .throw .null) () .null "A")).settled =
        some (.resolved .undefined) ∧
    (answer request 1
      (requestType (fun (_ : Unit) _ _ => .normal (.promise (some (.rejected (.num 0)))))
        () .null "A")).settled = some (.resolved .undefined) := by
  decide

/-- C19, as amended: when a handler registered through `requestType` throws
`e` or its promise is rejected with `e`, and the transport hands the
arguments of the wrapper's callback unchanged to the completion callback of
an attempt of a pending request, then for a truthy `e` the request is
rejected with exactly `e`, and for a falsy `e` (`null`, `undefined`, `0`,
`false`, `NaN`, the empty string) it is resolved with `undefined`. -/
theorem handler_failure_reaches_requester {α : Type}
    (handler : α → JSVal → String → Completion) (nest : α) (content : JSVal)
    (source : String) (e : JSVal) (evs : List Event) (n : Nat)
    (hfail : handler nest content source = .throw e ∨
      handler nest content source = .normal (.promise (some (.rejected e))))
    (hpending : (run request evs).settled = none)
    (hn : n ∈ (run request evs).callbacks) :
    requestType handler nest content source = [⟨e, .undefined⟩] ∧
    (answer (run request evs) n (requestType handler nest content source)).settled =
      some (if truthy e then .rejected e else .resolved .undefined) := by
  have hcalls : requestType handler nest content source = [⟨e, .undefined⟩] := by
    rcases hfail with h | h
    · simp [requestType, h]
    · simp [requestType, h, promiseResolve, thenCallback]
  refine ⟨hcalls, ?_⟩
  rw [hcalls, answer_single]
  simp only [step, hn, if_true, onCallback]
  split <;> simp [settle, hpending]

/-- Witness of `handler_failure_reaches_requester`: the handler throws the
error `boom` while the second attempt is under way. -/
theorem handler_failure_reaches_requester_witness :
    requestType (fun (_ : Unit) _ _ => .throw (.error "boom")) () .null "A" =
      [⟨.error "boom", .undefined⟩] ∧
    (answer (run request [.timer 1]) 2
      (requestType (fun (_ : Unit) _ _ => .throw (.error "boom")) () .null "A")).settled =
      some (if truthy (.error "boom") then .rejected (.error "boom")
        else .resolved .undefined) :=
  handler_failure_reaches_requester (fun (_ : Unit) _ _ => .throw (.error "boom")) ()
    .null "A" (.error "boom") [.timer 1] 2 (Or.inl rfl) (by decide) (by decide)

/-! ## Termination of `findRoute` and shortest paths -/

theorem scanLog_fst (to_ : String) (via : Option String) (ns : List String) :
    ∀ routes, (scanLog to_ via ns routes).1 = scan to_ via ns routes := by
  induction ns with
  | nil => intro routes; rfl
  | cons y ns ih =>
    intro routes
    simp only [scanLog, scan]
    split
    · rfl
    · split
      · exact ih routes
      · exact ih _

theorem scanLog_more (to_ : String) (via : Option String) (ns : List String) :
    ∀ routes routes0 routes1, scanLog to_ via ns routes = (.more routes0, routes1) →
      routes0 = routes1 := by
  induction ns with
  | nil =>
    intro routes routes0 routes1 h
    simp only [scanLog, Prod.mk.injEq, Scan.more.injEq] at h
    rw [← h.1, ← h.2]
  | cons y ns ih =>
    intro routes routes0 routes1 h
    simp only [scanLog] at h
    split at h
    · simp at h
    · split at h
      · exact ih _ _ _ h
      · exact ih _ _ _ h

theorem scanLog_tidy (from_ to_ : String) (connections : Connections) (via : Option String)
    (ns : List String) (hns : ∀ y ∈ ns, y ∈ listedNames connections) :
    ∀ routes, Tidy from_ connections routes →
      Tidy from_ connections (scanLog to_ via ns routes).2 ∧
      routes.length ≤ (scanLog to_ via ns routes).2.length := by
  induction ns with
  | nil => intro routes h; exact ⟨h, le_refl _⟩
  | cons y ns ih =>
    intro routes h
    have hns1 : ∀ z ∈ ns, z ∈ listedNames connections :=
      fun z hz => hns z (List.mem_cons_of_mem y hz)
    simp only [scanLog]
    split
    · exact ⟨h, le_refl _⟩
    · split
      · exact ih hns1 routes h
      · rename_i hany
        have hnew : ∀ r ∈ routes, r.at_ ≠ y := by
          intro r hr hc
          apply hany
          simp only [List.any_eq_true, decide_eq_true_eq]
          exact ⟨r, hr, hc⟩
        have htidy : Tidy from_ connections
            (routes ++ [Route.mk y (some (viaOr via y))]) := by
          constructor
          · rw [List.map_append, List.nodup_append]
            refine ⟨h.1, by simp, ?_⟩
            intro a ha hb
            simp only [List.map_cons, List.map_nil, List.mem_singleton] at hb
            subst hb
            obtain ⟨r, hr, hra⟩ := List.mem_map.1 ha
            exact hnew r hr hra
          · intro r hr
            rcases List.mem_append.1 hr with hr | hr
            · exact h.2 r hr
            · simp only [List.mem_singleton] at hr
              subst hr
              exact Or.inr (hns y (List.mem_cons_self y ns))
        have := ih hns1 _ htidy
        refine ⟨this.1, le_trans ?_ this.2⟩
        simp

theorem tidy_length_le (from_ : String) (connections : Connections) (routes : List Route)
    (h : Tidy from_ connections routes) :
    routes.length ≤ (listedNames connections).dedup.length + 1 ∧
    routes.length ≤ (listedNames connections).length + 1 ∧
    routes.length ≤ (mapNames connections).dedup.length + 1 := by
  have hsub : routes.map (fun r => r.at_) ⊆ from_ :: (listedNames connections).dedup := by
    intro a ha
    obtain ⟨r, hr, hra⟩ := List.mem_map.1 ha
    subst hra
    rcases h.2 r hr with h1 | h1
    · simp [h1]
    · exact List.mem_cons_of_mem _ (List.mem_dedup.2 h1)
  have hlen := (List.Nodup.subperm h.1 hsub).length_le
  simp only [List.length_map, List.length_cons] at hlen
  have hd : (listedNames connections).dedup.length ≤ (listedNames connections).length :=
    (List.dedup_sublist _).length_le
  have hsub2 : (listedNames connections).dedup ⊆ (mapNames connections).dedup := by
    intro a ha
    rw [List.mem_dedup] at ha ⊢
    exact List.mem_append_right _ ha
  have hm := (List.Nodup.subperm (List.nodup_dedup _) hsub2).length_le
  omega

/-- The outer loop returns within the fuel; the work list it leaves is tidy,
and the body was entered at most once per entry of that list from the start
index on. -/
theorem findRouteLog_spec (from_ to_ : String) (connections : Connections) :
    ∀ (fuel i : Nat) (routes : List Route), Tidy from_ connections routes →
      i ≤ routes.length → (listedNames connections).length + 2 ≤ fuel + i →
      ∃ t, findRouteLog to_ connections fuel i routes = .returned t ∧
        findRouteLoop to_ connections fuel i routes = .returned t.result ∧
        Tidy from_ connections t.routes ∧ i + t.iterations ≤ t.routes.length := by
  intro fuel
  induction fuel with
  | zero =>
    intro i routes h hi hf
    have := (tidy_length_le from_ connections routes h).2.1
    omega
  | succ fuel ih =>
    intro i routes h hi hf
    cases hget : routes.get? i with
    | none =>
      exact ⟨⟨none, routes, 0⟩, by simp only [findRouteLog, hget],
        by simp only [findRouteLoop, hget], h, by simpa using hi⟩
    | some r =>
      have hilt : i < routes.length := by
        rw [List.get?_eq_getElem?] at hget
        exact (List.getElem?_eq_some.1 hget).1
      have hns : ∀ y ∈ neighborsOf connections r.at_, y ∈ listedNames connections :=
        fun y hy => neighborsOf_listed connections r.at_ y hy
      have htidy := scanLog_tidy from_ to_ connections r.via _ hns routes h
      have hfst := scanLog_fst to_ r.via (neighborsOf connections r.at_) routes
      cases hs : scanLog to_ r.via (neighborsOf connections r.at_) routes with
      | mk res routes1 =>
        rw [hs] at htidy hfst
        simp only at htidy hfst
        cases res with
        | found via =>
          refine ⟨⟨via, routes1, 1⟩, by simp only [findRouteLog, hget, hs],
            by simp only [findRouteLoop, hget, ← hfst], htidy.1, ?_⟩
          have := htidy.2
          simp only
          omega
        | more routes0 =>
          have h01 := scanLog_more _ _ _ _ _ _ hs
          subst h01
          obtain ⟨t, ht1, ht2, ht3, ht4⟩ := ih (i + 1) routes0 htidy.1 (by omega) (by omega)
          refine ⟨⟨t.result, t.routes, t.iterations + 1⟩,
            by simp only [findRouteLog, hget, hs, ht1],
            by simp only [findRouteLoop, hget, ← hfst, ht2], ht3, ?_⟩
          simp only
          omega

/-- C20: `findRoute` returns for every map and every pair of names, within
the fuel. The work list `routes` it leaves holds no node name twice, its
length is at most 1 plus the number of distinct names that occur in the map,
and the body of the outer loop was entered at most as many times as the work
list has entries. -/
theorem findRoute_terminates (from_ to_ : String) (connections : Connections) :
    ∃ t, findRouteLog to_ connections ((listedNames connections).length + 2) 0
        [⟨from_, none⟩] = .returned t ∧
      findRoute from_ to_ connections = .returned t.result ∧
      (t.routes.map (fun r => r.at_)).Nodup ∧
      t.routes.length ≤ (mapNames connections).dedup.length + 1 ∧
      t.iterations ≤ t.routes.length ∧
      t.iterations ≤ (mapNames connections).dedup.length + 1 := by
  have htidy : Tidy from_ connections [⟨from_, none⟩] := by
    constructor <;> simp
  obtain ⟨t, h1, h2, h3, h4⟩ := findRouteLog_spec from_ to_ connections
    ((listedNames connections).length + 2) 0 [⟨from_, none⟩] htidy (by simp) (by simp)
  have hlen := (tidy_length_le from_ connections t.routes h3).2.2
  exact ⟨t, h1, h2, h3.1, hlen, by omega, by omega⟩

theorem dist_of_shortest (connections : Connections) (a b : String) (d : Nat)
    (hab : a ≠ b) (h : Shortest connections a b d) : Dist connections a b d := by
  refine ⟨?_, h.1, fun k _ hk => h.2 k hk⟩
  cases d with
  | zero => exact absurd h.1.zero_eq.symm hab
  | succ d => omega

theorem shortest_of_dist (connections : Connections) (a b : String) (d : Nat)
    (hab : a ≠ b) (h : Dist connections a b d) : Shortest connections a b d := by
  refine ⟨h.2.1, fun k hk => ?_⟩
  cases k with
  | zero => exact absurd hk.zero_eq.symm hab
  | succ k => exact h.2.2 (k + 1) (by omega) hk

theorem forward_at_target (connections : Connections) (target type : String)
    (content : JSVal) (m : Nat) : forward connections target type content m target = [target] := by
  cases m with
  | zero => rfl
  | succ m => simp [forward]

/-- Forwarding from a node other than the target whose shortest walk to the
target has `d + 1` edges. -/
theorem forward_spec (target type : String) (content : JSVal) (connections : Connections)
    (hne : NonEmptyNames connections) (d : Nat) :
    ∀ cur, cur ≠ target → Dist connections cur target (d + 1) →
      ∃ path, (∀ m, d + 1 ≤ m → forward connections target type content m cur = path) ∧
        path.length = d + 2 ∧ path.head? = some cur ∧ path.getLast? = some target ∧
        (∀ x ∈ path, x = target ∨ ∃ e, e ≤ d + 1 ∧ Dist connections x target e) ∧
        path.Nodup := by
  induction d with
  | zero =>
    intro cur hcur hd
    have hn := walk_one connections cur target hd.2.1
    refine ⟨[cur, target], ?_, rfl, rfl, rfl, ?_, by simp [hcur]⟩
    · intro m hm
      obtain ⟨j, rfl⟩ : ∃ j, m = j + 1 := ⟨m - 1, by omega⟩
      simp [forward, hcur, routeRequest, nestAt, hn, forward_at_target]
    · intro x hx
      simp only [List.mem_cons, List.mem_singleton, List.not_mem_nil, or_false] at hx
      rcases hx with hx | hx
      · subst hx; exact Or.inr ⟨1, le_refl _, hd⟩
      · exact Or.inl hx
  | succ d ih =>
    intro cur hcur hd
    obtain ⟨v, hv, hvn, hvd⟩ := findRoute_next_hop cur target connections hne d hd
    have hnot : target ∉ neighborsOf connections cur := by
      intro hc
      have := hd.2.2 1 (le_refl _) (Walk.step Walk.refl hc)
      omega
    have hvt : v ≠ target := fun hc => hnot (hc ▸ hvn)
    have hvne : v ≠ "" := hne cur v hvn
    obtain ⟨path, hp, hlen, hhead, hlast, hall, hnd⟩ := ih v hvt hvd
    refine ⟨cur :: path, ?_, by simp [hlen], rfl, ?_, ?_, ?_⟩
    · intro m hm
      obtain ⟨j, rfl⟩ : ∃ j, m = j + 1 := ⟨m - 1, by omega⟩
      simp only [forward, hcur, if_false, routeRequest, nestAt, hnot, hv, notVia]
      simp [hvne, hp j (by omega)]
    · cases path with
      | nil => simp at hlen
      | cons a t => simpa [List.getLast?_cons_cons] using hlast
    · intro x hx
      rcases List.mem_cons.1 hx with hx | hx
      · subst hx
        exact Or.inr ⟨d + 2, le_refl _, hd⟩
      · rcases hall x hx with h1 | ⟨e, he, hxe⟩
        · exact Or.inl h1
        · exact Or.inr ⟨e, by omega, hxe⟩
    · rw [List.nodup_cons]
      refine ⟨?_, hnd⟩
      intro hc
      rcases hall cur hc with h1 | ⟨e, he, hce⟩
      · exact hcur h1
      · have := dist_unique connections cur target _ _ hd hce
        omega

/-- C18: let no name listed in the map be empty, let `from` and `to` differ,
and let `to` be at shortest-path distance `d` from `from` without being
listed among the neighbours of `from`. Then `findRoute(from, to, map)`
returns a name `v` listed among the neighbours of `from` whose shortest-path
distance to `to` is `d - 1`. Forwarding by the rule of `routeRequest`, with
this map at every node, takes the message from `from` to `to` in exactly `d`
hops and passes no node twice. -/
theorem findRoute_shortest_path (from_ to_ : String) (connections : Connections)
    (type : String) (content : JSVal) (d : Nat)
    (hne : NonEmptyNames connections) (hft : from_ ≠ to_)
    (hd : Shortest connections from_ to_ d)
    (hnot : to_ ∉ neighborsOf connections from_) :
    (∃ v, findRoute from_ to_ connections = .returned (some v) ∧
      v ∈ neighborsOf connections from_ ∧ Shortest connections v to_ (d - 1)) ∧
    ∃ path, (∀ m, d ≤ m → forward connections to_ type content m from_ = path) ∧
      path.length = d + 1 ∧ path.head? = some from_ ∧ path.getLast? = some to_ ∧
      path.Nodup := by
  have hdist := dist_of_shortest connections from_ to_ d hft hd
  obtain ⟨e, rfl⟩ : ∃ e, d = e + 2 := by
    have h1 := hdist.1
    have h2 : d ≠ 1 := by
      intro hc
      rw [hc] at hdist
      exact hnot (walk_one connections from_ to_ hdist.2.1)
    exact ⟨d - 2, by omega⟩
  constructor
  · obtain ⟨v, hv, hvn, hvd⟩ := findRoute_next_hop from_ to_ connections hne e hdist
    have hvt : v ≠ to_ := fun hc => hnot (hc ▸ hvn)
    exact ⟨v, hv, hvn, shortest_of_dist connections v to_ _ hvt hvd⟩
  · obtain ⟨path, hp, hlen, hhead, hlast, _, hnd⟩ :=
      forward_spec to_ type content connections hne (e + 1) from_ hft hdist
    exact ⟨path, hp, hlen, hhead, hlast, hnd⟩

/-- Witness of `findRoute_shortest_path`: on the line A, B, C the next hop
from `A` to `C` is `B`, and the message goes A, B, C. -/
theorem findRoute_shortest_path_witness :
    findRoute "A" "C" [("A", ["B"]), ("B", ["A", "C"]), ("C", ["B"])] = .returned (some "B") ∧
    forward [("A", ["B"]), ("B", ["A", "C"]), ("C", ["B"])] "C" "ping" .null 2 "A" =
      ["A", "B", "C"] ∧
    ((∃ v, findRoute "A" "C" [("A", ["B"]), ("B", ["A", "C"]), ("C", ["B"])] =
        .returned (some v) ∧
      v ∈ neighborsOf [("A", ["B"]), ("B", ["A", "C"]), ("C", ["B"])] "A" ∧
      Shortest [("A", ["B"]), ("B", ["A", "C"]), ("C", ["B"])] v "C" (2 - 1)) ∧
    ∃ path, (∀ m, 2 ≤ m →
        forward [("A", ["B"]), ("B", ["A", "C"]), ("C", ["B"])] "C" "ping" .null m "A" =
          path) ∧
      path.length = 2 + 1 ∧ path.head? = some "A" ∧ path.getLast? = some "C" ∧
      path.Nodup) :=
  ⟨by decide, by decide,
   findRoute_shortest_path "A" "C" [("A", ["B"]), ("B", ["A", "C"]), ("C", ["B"])]
    "ping" .null 2
    (nonEmptyNames_of_listed _ (by decide))
    (by decide)
    ⟨Walk.step (Walk.step (Walk.refl : Walk _ "A" "A" 0)
        (by decide : "B" ∈ neighborsOf _ "A")) (by decide), by
      intro k hk
      match k, hk with
      | 0, hk => exact absurd hk.zero_eq (by decide)
      | 1, hk => exact absurd (walk_one _ _ _ hk) (by decide)
      | k + 2, _ => omega⟩
    (by decide)⟩

/-! ## Flooding in the network -/

/-- The effect of `callAt`: no nest has the name, or the first nest of that
name is replaced by what `f` makes of it. -/
theorem callAt_spec (name : String) (f : Nest → Nest × List Request) (nests : List Nest) :
    ((∀ x ∈ nests, x.name ≠ name) ∧ callAt name f nests = (nests, [])) ∨
    (∃ pre n post, nests = pre ++ n :: post ∧ n.name = name ∧
      (∀ x ∈ pre, x.name ≠ name) ∧
      callAt name f nests = (pre ++ (f n).1 :: post, (f n).2.map (Packet.mk n.name))) := by
  induction nests with
  | nil => left; simp [callAt]
  | cons a rest ih =>
    by_cases h : a.name = name
    · right
      exact ⟨[], a, rest, rfl, h, by simp, by simp [callAt, h]⟩
    · rcases ih with ⟨h1, h2⟩ | ⟨pre, n, post, h1, h2, h3, h4⟩
      · left
        refine ⟨?_, by simp [callAt, h, h2]⟩
        intro x hx
        rcases List.mem_cons.1 hx with hx | hx
        · subst hx; exact h
        · exact h1 x hx
      · right
        refine ⟨a :: pre, n, post, by simp [h1], h2, ?_, by simp [callAt, h, h4]⟩
        intro x hx
        rcases List.mem_cons.1 hx with hx | hx
        · subst hx; exact h
        · exact h3 x hx

theorem name_unique (nests : List Nest) (h : (nests.map (fun n => n.name)).Nodup)
    (a b : Nest) (ha : a ∈ nests) (hb : b ∈ nests) (hab : a.name = b.name) : a = b :=
  List.inj_on_of_nodup_map h ha hb hab

theorem nodup_split (pre post : List Nest) (n : Nest)
    (h : ((pre ++ n :: post).map (fun n => n.name)).Nodup) :
    ∀ x ∈ pre ++ post, x.name ≠ n.name := by
  intro x hx hc
  have hxin : x ∈ pre ++ n :: post := by
    rcases List.mem_append.1 hx with h1 | h1
    · exact List.mem_append_left _ h1
    · exact List.mem_append_right _ (List.mem_cons_of_mem _ h1)
  have hnin : n ∈ pre ++ n :: post := by simp
  have hxn := name_unique _ h x n hxin hnin hc
  subst hxn
  rw [List.map_append, List.map_cons] at h
  have h2 := List.nodup_append.1 h
  rcases List.mem_append.1 hx with h1 | h1
  · exact h2.2.2 (List.mem_map_of_mem _ h1) (List.mem_cons_self _ _)
  · have h3 := (List.nodup_cons.1 h2.2.1).1
    exact h3 (List.mem_map_of_mem _ h1)

/-- The three ways a delivery can go: there is no request at position `k`;
its target is no nest of the network; or the handler runs at the target. -/
theorem deliver_spec (net : Net) (k : Nat) :
    (net.issued.get? k = none ∧ deliver net k = net) ∨
    (∃ p, net.issued.get? k = some p ∧ (∀ x ∈ net.nests, x.name ≠ p.request.target) ∧
      deliver net k = ⟨net.nests, net.issued ++ [], k :: net.delivered⟩) ∨
    (∃ p pre n post, net.issued.get? k = some p ∧ net.nests = pre ++ n :: post ∧
      n.name = p.request.target ∧
      deliver net k = ⟨pre ++ (handle n p.request p.source).1 :: post,
        net.issued ++ (handle n p.request p.source).2.map (Packet.mk n.name),
        k :: net.delivered⟩) := by
  cases hget : net.issued.get? k with
  | none => left; exact ⟨rfl, by simp only [deliver, hget]⟩
  | some p =>
    right
    rcases callAt_spec p.request.target (fun n => handle n p.request p.source) net.nests with
      ⟨h1, h2⟩ | ⟨pre, n, post, h1, h2, _, h4⟩
    · left
      exact ⟨p, rfl, h1, by simp only [deliver, hget, h2]⟩
    · right
      exact ⟨p, pre, n, post, rfl, h1, h2, by simp only [deliver, hget, h4]⟩

theorem get?_lt {α : Type} (l : List α) (k : Nat) (p : α) (h : l.get? k = some p) :
    k < l.length := by
  rw [List.get?_eq_getElem?] at h
  exact (List.getElem?_eq_some.1 h).1

theorem get?_mem {α : Type} (l : List α) (k : Nat) (p : α) (h : l.get? k = some p) :
    p ∈ l := by
  rw [List.get?_eq_getElem?] at h
  obtain ⟨hk, hp⟩ := List.getElem?_eq_some.1 h
  rw [← hp]
  exact List.getElem_mem hk

theorem get?_append_old {α : Type} (l l2 : List α) (k : Nat) (h : k < l.length) :
    (l ++ l2).get? k = l.get? k := by
  rw [List.get?_eq_getElem?, List.get?_eq_getElem?, List.getElem?_append_left h]

/-- One delivery keeps the invariant of the flood. -/
theorem deliver_floodInv (K : Nest → Prop) (item ok : Request → Prop)
    (hF : Flood K item ok) (net : Net) (k : Nat) (h : FloodInv K item ok net) :
    FloodInv K item ok (deliver net k) := by
  obtain ⟨hnd, hdel, hok, hsrc, hfan, hgot⟩ := h
  rcases deliver_spec net k with ⟨_, h2⟩ | ⟨p, hget, hno, h2⟩ | ⟨p, pre, n, post, hget, hnests, hname, h2⟩
  · rw [h2]; exact ⟨hnd, hdel, hok, hsrc, hfan, hgot⟩
  · rw [h2]
    simp only [List.append_nil]
    refine ⟨hnd, ?_, hok, hsrc, hfan, ?_⟩
    · intro j hj
      rcases List.mem_cons.1 hj with hj | hj
      · subst hj; exact get?_lt _ _ _ hget
      · exact hdel j hj
    · intro j hj q hq hitem x hx hxn
      rcases List.mem_cons.1 hj with hj | hj
      · subst hj
        rw [hget] at hq
        simp only [Option.some.injEq] at hq
        subst hq
        exact absurd hxn (hno x hx)
      · exact hgot j hj q hq hitem x hx hxn
  · rw [h2]
    have hpin : p ∈ net.issued := get?_mem _ _ _ hget
    have hokp := hok p hpin
    have hnin : n ∈ net.nests := by rw [hnests]; simp
    have hfr := hF.frame n p.request p.source
    have hother := nodup_split pre post n (by rw [← hnests]; exact hnd)
    -- membership in the new list of nests
    have hmem : ∀ x, x ∈ pre ++ (handle n p.request p.source).1 :: post →
        x = (handle n p.request p.source).1 ∨ (x ∈ net.nests ∧ x.name ≠ n.name) := by
      intro x hx
      rcases List.mem_append.1 hx with h1 | h1
      · exact Or.inr ⟨by rw [hnests]; exact List.mem_append_left _ h1,
          hother x (List.mem_append_left _ h1)⟩
      · rcases List.mem_cons.1 h1 with h1 | h1
        · exact Or.inl h1
        · exact Or.inr ⟨by rw [hnests]; exact List.mem_append_right _ (List.mem_cons_of_mem _ h1),
            hother x (List.mem_append_right _ h1)⟩
    have hnew : (handle n p.request p.source).1 ∈
        pre ++ (handle n p.request p.source).1 :: post := by simp
    have hkeep : ∀ x ∈ net.nests, x.name ≠ n.name →
        x ∈ pre ++ (handle n p.request p.source).1 :: post := by
      intro x hx hxn
      rw [hnests] at hx
      rcases List.mem_append.1 hx with h1 | h1
      · exact List.mem_append_left _ h1
      · rcases List.mem_cons.1 h1 with h1 | h1
        · subst h1; exact absurd rfl hxn
        · exact List.mem_append_right _ (List.mem_cons_of_mem _ h1)
    -- a nest that knows the item is still there, by name, and still knows it
    have htransfer : ∀ w, (∃ x ∈ net.nests, x.name = w ∧ K x) →
        ∃ x ∈ pre ++ (handle n p.request p.source).1 :: post, x.name = w ∧ K x := by
      rintro w ⟨x, hx, hxw, hKx⟩
      by_cases hxn : x.name = n.name
      · have hxeq := name_unique _ hnd x n hx hnin hxn
        subst hxeq
        exact ⟨_, hnew, by rw [hfr.1, hxw], hF.mono _ _ _ hokp hKx⟩
      · exact ⟨x, hkeep x hx hxn, hxw, hKx⟩
    refine ⟨?_, ?_, ?_, ?_, ?_, ?_⟩
    · have : (pre ++ (handle n p.request p.source).1 :: post).map (fun n => n.name) =
          net.nests.map (fun n => n.name) := by
        rw [hnests]; simp [hfr.1]
      simp only
      rw [this]; exact hnd
    · intro j hj
      simp only [List.length_append]
      rcases List.mem_cons.1 hj with hj | hj
      · subst hj
        have := get?_lt _ _ _ hget
        omega
      · have := hdel j hj
        omega
    · intro q hq
      rcases List.mem_append.1 hq with hq | hq
      · exact hok q hq
      · obtain ⟨r, hr, rfl⟩ := List.mem_map.1 hq
        exact hF.out_ok _ _ _ hokp r hr
    · intro q hq hitem
      rcases List.mem_append.1 hq with hq | hq
      · exact htransfer _ (hsrc q hq hitem)
      · obtain ⟨r, hr, rfl⟩ := List.mem_map.1 hq
        exact ⟨_, hnew, hfr.1, hF.out_item _ _ _ hokp r hr hitem⟩
    · intro v hv hKv w hw
      rcases hmem v hv with hv1 | ⟨hv1, hvn⟩
      · subst hv1
        rw [hfr.2] at hw
        rw [hfr.1]
        by_cases hKn : K n
        · rcases hfan n hnin hKn w hw with ⟨q, hq, hq1⟩ | hright
          · exact Or.inl ⟨q, List.mem_append_left _ hq, hq1⟩
          · exact Or.inr (htransfer w hright)
        · obtain ⟨hitem, hout⟩ := hF.fresh _ _ _ hokp hKn hKv
          by_cases hws : w = p.source
          · subst hws
            exact Or.inr (htransfer _ (hsrc p hpin hitem))
          · obtain ⟨q, hq, hqt, hqi⟩ := hout w hw hws
            exact Or.inl ⟨⟨n.name, q⟩, List.mem_append_right _ (List.mem_map_of_mem _ hq),
              rfl, hqt, hqi⟩
      · rcases hfan v hv1 hKv w hw with ⟨q, hq, hq1⟩ | hright
        · exact Or.inl ⟨q, List.mem_append_left _ hq, hq1⟩
        · exact Or.inr (htransfer w hright)
    · intro j hj q hq hitem x hx hxn
      simp only at hq
      have hold : ∀ j, j < net.issued.length → net.issued.get? j = some q →
          (∀ y ∈ net.nests, y.name = q.request.target → K y) → K x := by
        intro j _ _ hall
        rcases hmem x hx with hx1 | ⟨hx1, _⟩
        · subst hx1
          exact hF.mono _ _ _ hokp (hall n hnin (by rw [← hxn, hfr.1]))
        · exact hall x hx1 hxn
      rcases List.mem_cons.1 hj with hj | hj
      · subst hj
        have hlt := get?_lt _ _ _ hget
        rw [get?_append_old _ _ _ hlt, hget] at hq
        simp only [Option.some.injEq] at hq
        subst hq
        rcases hmem x hx with hx1 | ⟨_, hx2⟩
        · subst hx1
          exact hF.learn _ _ _ hokp hitem
        · exact absurd (hxn.trans hname.symm) hx2
      · have hlt := hdel j hj
        rw [get?_append_old _ _ _ hlt] at hq
        exact hold j hlt hq (hgot j hj q hq hitem)

theorem runNet_floodInv (K : Nest → Prop) (item ok : Request → Prop)
    (hF : Flood K item ok) (ks : List Nat) :
    ∀ net, FloodInv K item ok net → FloodInv K item ok (runNet net ks) := by
  induction ks with
  | nil => intro net h; exact h
  | cons k ks ih => intro net h; exact ih _ (deliver_floodInv K item ok hF net k h)

/-- In a settled network, a neighbour of a nest that knows the item knows
it too. -/
theorem settled_step (K : Nest → Prop) (item ok : Request → Prop) (net : Net)
    (h : FloodInv K item ok net) (hs : net.settled) :
    ∀ v ∈ net.nests, K v → ∀ w ∈ v.neighbors, ∀ x ∈ net.nests, x.name = w → K x := by
  intro v hv hKv w hw x hx hxw
  rcases h.fan v hv hKv w hw with ⟨q, hq, _, hqt, hqi⟩ | ⟨y, hy, hyw, hKy⟩
  · obtain ⟨j, hj, hjq⟩ := List.getElem_of_mem hq
    have hget : net.issued.get? j = some q := by
      rw [List.get?_eq_getElem?, List.getElem?_eq_getElem hj, hjq]
    exact h.got j (hs j hj) q hget hqi x hx (hxw.trans hqt.symm)
  · have := name_unique _ h.names_nodup x y hx hy (hxw.trans hyw.symm)
    subst this
    exact hKy

/-- In a settled network every nest that can be reached from a nest that
knows the item knows it too. -/
theorem settled_reach (K : Nest → Prop) (item ok : Request → Prop) (net : Net)
    (h : FloodInv K item ok net) (hs : net.settled) (a b : String)
    (hab : Reach net.nests a b) :
    (∀ x ∈ net.nests, x.name = a → K x) → ∀ x ∈ net.nests, x.name = b → K x := by
  intro ha
  induction hab with
  | refl => exact ha
  | tail _ hl ih =>
    obtain ⟨v, hv, hvn, hw⟩ := hl
    intro x hx hxn
    exact settled_step K item ok net h hs v hv (ih v hv hvn) _ hw x hx hxn

theorem handle_frame (n : Nest) (r : Request) (s : String) :
    (handle n r s).1.name = n.name ∧ (handle n r s).1.neighbors = n.neighbors := by
  unfold handle
  split
  · rw [gossipHandler_true]
    split <;> simp [sendGossip]
  · split
    · split
      · unfold connectionsHandler
        split <;> simp
      · simp
    · simp

theorem handle_gossip (n : Nest) (r : Request) (s : String) (h : r.type = "gossip") :
    handle n r s = gossipHandler true n r.content s := by
  simp [handle, h]

theorem handle_gossip_history (n : Nest) (r : Request) (s : String)
    (h : r.type ≠ "gossip") : (handle n r s).1.gossip = n.gossip := by
  unfold handle
  simp only [h, if_false]
  split
  · split
    · unfold connectionsHandler
      split <;> simp
    · simp
  · simp

theorem handle_out_type (n : Nest) (r : Request) (s : String) :
    ∀ q ∈ (handle n r s).2, q.type = r.type := by
  intro q hq
  unfold handle at hq
  split at hq
  · rename_i ht
    rw [gossipHandler_true] at hq
    split at hq
    · simp at hq
    · rw [ht]; exact (sendToNeighbors_mem _ _ _ _ q hq).1
  · split at hq
    · rename_i ht
      split at hq
      · unfold connectionsHandler at hq
        split at hq
        · simp at hq
        · rw [ht]; exact (sendToNeighbors_mem _ _ _ _ q hq).1
      · simp at hq
    · simp at hq

/-- The handlers flood a gossip message. -/
theorem flood_gossip (m : JSVal) :
    Flood (fun n => m ∈ n.gossip) (fun r => r.type = "gossip" ∧ r.content = m)
      (fun _ => True) := by
  refine ⟨handle_frame, fun _ _ _ _ _ _ => trivial, ?_, ?_, ?_, ?_⟩
  · intro n r s _ hK
    by_cases ht : r.type = "gossip"
    · rw [handle_gossip n r s ht]
      rw [gossipHandler_true]
      split
      · exact hK
      · simp [sendGossip, hK]
    · rw [handle_gossip_history n r s ht]; exact hK
  · rintro n r s _ ⟨ht, hc⟩
    rw [handle_gossip n r s ht, hc]
    rw [gossipHandler_true]
    split
    · assumption
    · simp [sendGossip]
  · intro n r s _ hnK hK
    by_cases ht : r.type = "gossip"
    · rw [handle_gossip n r s ht] at hK ⊢
      rw [gossipHandler_true] at hK ⊢
      by_cases hin : r.content ∈ n.gossip
      · simp only [hin, if_true] at hK
        exact absurd hK hnK
      · simp only [hin, if_false, sendGossip, List.mem_append, List.mem_singleton] at hK ⊢
        have hc : m = r.content := by
          rcases hK with hK | hK
          · exact absurd hK hnK
          · exact hK
        refine ⟨⟨ht, hc.symm⟩, ?_⟩
        intro w hw hws
        refine ⟨⟨w, "gossip", r.content⟩, ?_, rfl, rfl, hc.symm⟩
        rw [sendToNeighbors_eq]
        exact List.mem_map.2 ⟨w, by simp [hw, hws], rfl⟩
    · rw [handle_gossip_history n r s ht] at hK
      exact absurd hK hnK
  · rintro n r s _ q hq ⟨hqt, hqc⟩
    have ht : r.type = "gossip" := by rw [← handle_out_type n r s q hq]; exact hqt
    rw [handle_gossip n r s ht] at hq ⊢
    rw [gossipHandler_true] at hq ⊢
    split at hq
    · simp at hq
    · rename_i hin
      simp only [hin, if_false]
      have := (sendToNeighbors_mem _ _ _ _ q hq).2.1
      simp [sendGossip, ← hqc, this]

theorem deliver_topology (net : Net) (k : Nat) :
    topology (deliver net k).nests = topology net.nests := by
  rcases deliver_spec net k with ⟨_, h2⟩ | ⟨p, _, _, h2⟩ | ⟨p, pre, n, post, _, hnests, _, h2⟩
  · rw [h2]
  · rw [h2]
  · rw [h2, hnests]
    have := handle_frame n p.request p.source
    simp [topology, this.1, this.2]

theorem runNet_topology (ks : List Nat) : ∀ net, topology (runNet net ks).nests =
    topology net.nests := by
  induction ks with
  | nil => intro net; rfl
  | cons k ks ih => intro net; exact (ih _).trans (deliver_topology net k)

theorem linked_of_topology (l1 l2 : List Nest) (h : topology l1 = topology l2)
    (a b : String) (hl : Linked l1 a b) : Linked l2 a b := by
  obtain ⟨v, hv, hva, hb⟩ := hl
  have hmem : (v.name, v.neighbors) ∈ topology l2 := by
    rw [← h]; exact List.mem_map.2 ⟨v, hv, rfl⟩
  obtain ⟨u, hu, hue⟩ := List.mem_map.1 hmem
  simp only [Prod.mk.injEq] at hue
  exact ⟨u, hu, hue.1.trans hva, by rw [hue.2]; exact hb⟩

theorem reach_of_topology (l1 l2 : List Nest) (h : topology l1 = topology l2)
    (a b : String) (hr : Reach l1 a b) : Reach l2 a b := by
  induction hr with
  | refl => exact Relation.ReflTransGen.refl
  | tail _ hl ih => exact Relation.ReflTransGen.tail ih (linked_of_topology l1 l2 h _ _ hl)

theorem names_of_topology (l1 l2 : List Nest) (h : topology l1 = topology l2) :
    l1.map (fun n => n.name) = l2.map (fun n => n.name) := by
  have := congrArg (List.map Prod.fst) h
  simpa [topology, List.map_map, Function.comp] using this

theorem degreeSum_of_topology (l1 l2 : List Nest) (h : topology l1 = topology l2) :
    degreeSum l1 = degreeSum l2 := by
  have := congrArg (List.map (fun p : String × List String => p.2.length)) h
  simp only [topology, List.map_map] at this
  have h1 : ∀ l : List Nest, List.map (fun n => n.neighbors.length) l =
      List.map ((fun p : String × List String => p.2.length) ∘
        fun n : Nest => (n.name, n.neighbors)) l := fun l => rfl
  simp only [degreeSum, h1]
  rw [this]

theorem arcs_length (nests : List Nest) : (arcs nests).length = degreeSum nests := by
  induction nests with
  | nil => rfl
  | cons n rest ih => simp [arcs, degreeSum, ih] at *

theorem callAt_topology (name : String) (f : Nest → Nest × List Request)
    (hf : ∀ n, (f n).1.name = n.name ∧ (f n).1.neighbors = n.neighbors) (nests : List Nest) :
    topology (callAt name f nests).1 = topology nests := by
  rcases callAt_spec name f nests with ⟨_, h2⟩ | ⟨pre, n, post, h1, _, _, h4⟩
  · rw [h2]
  · rw [h4, h1]
    simp [topology, (hf n).1, (hf n).2]

theorem gossipStart_topology (nests : List Nest) (origin : String) (m : JSVal) :
    topology (gossipStart nests origin m).nests = topology nests := by
  unfold gossipStart
  simp only
  rw [callAt_topology _ _ (fun n => by simp [sendGossip])]
  simp [topology, gossipStartup, List.map_map, Function.comp]

theorem deliver_knows (K : Nest → Prop) (item ok : Request → Prop)
    (hF : Flood K item ok) (net : Net) (k : Nat) (h : FloodInv K item ok net) (a : String)
    (ha : ∀ x ∈ net.nests, x.name = a → K x) :
    ∀ x ∈ (deliver net k).nests, x.name = a → K x := by
  rcases deliver_spec net k with ⟨_, h2⟩ | ⟨p, _, _, h2⟩ | ⟨p, pre, n, post, hget, hnests, _, h2⟩
  · rw [h2]; exact ha
  · rw [h2]; exact ha
  · rw [h2]
    intro x hx hxa
    have hokp := h.all_ok p (get?_mem _ _ _ hget)
    have hnin : n ∈ net.nests := by rw [hnests]; simp
    rcases List.mem_append.1 hx with h1 | h1
    · exact ha x (by rw [hnests]; exact List.mem_append_left _ h1) hxa
    · rcases List.mem_cons.1 h1 with h1 | h1
      · subst h1
        rw [(hF.frame n p.request p.source).1] at hxa
        exact hF.mono _ _ _ hokp (ha n hnin hxa)
      · exact ha x (by rw [hnests]; exact List.mem_append_right _ (List.mem_cons_of_mem _ h1)) hxa

theorem runNet_knows (K : Nest → Prop) (item ok : Request → Prop)
    (hF : Flood K item ok) (a : String) (ks : List Nat) :
    ∀ net, FloodInv K item ok net → (∀ x ∈ net.nests, x.name = a → K x) →
      ∀ x ∈ (runNet net ks).nests, x.name = a → K x := by
  induction ks with
  | nil => intro net _ ha; exact ha
  | cons k ks ih =>
    intro net h ha
    exact ih _ (deliver_floodInv K item ok hF net k h) (deliver_knows K item ok hF net k h a ha)

/-- Right after `sendGossip(origin, m)` the invariant of the flood holds and
the origin has the message. -/
theorem gossipStart_floodInv (nests : List Nest) (origin : String) (m : JSVal)
    (hnames : (nests.map (fun n => n.name)).Nodup) :
    FloodInv (fun n => m ∈ n.gossip) (fun r => r.type = "gossip" ∧ r.content = m)
      (fun _ => True) (gossipStart nests origin m) ∧
    ∀ x ∈ (gossipStart nests origin m).nests, x.name = origin → m ∈ x.gossip := by
  have hnd : ((gossipStart nests origin m).nests.map (fun n => n.name)).Nodup := by
    rw [names_of_topology _ _ (gossipStart_topology nests origin m)]
    exact hnames
  have hempty : ∀ x ∈ nests.map gossipStartup, x.gossip = [] := by
    intro x hx
    obtain ⟨y, _, rfl⟩ := List.mem_map.1 hx
    rfl
  unfold gossipStart at hnd ⊢
  rcases callAt_spec origin (fun n => sendGossip n m none) (nests.map gossipStartup) with
    ⟨h1, h2⟩ | ⟨pre, n, post, h1, h2, _, h4⟩
  · rw [h2] at hnd ⊢
    simp only at hnd ⊢
    refine ⟨⟨hnd, by simp, by simp, by simp, ?_, by simp⟩, ?_⟩
    · intro v hv hK
      simp only [hempty v hv, List.not_mem_nil] at hK
    · intro x hx hxo
      exact absurd hxo (h1 x hx)
  · rw [h4] at hnd ⊢
    simp only at hnd ⊢
    have hn' : (sendGossip n m none).1 ∈ pre ++ (sendGossip n m none).1 :: post := by simp
    have hK' : m ∈ (sendGossip n m none).1.gossip := by simp [sendGossip]
    have hrest : ∀ x ∈ pre ++ (sendGossip n m none).1 :: post,
        x = (sendGossip n m none).1 ∨ x.gossip = [] := by
      intro x hx
      rcases List.mem_append.1 hx with hx | hx
      · exact Or.inr (hempty x (by rw [h1]; exact List.mem_append_left _ hx))
      · rcases List.mem_cons.1 hx with hx | hx
        · exact Or.inl hx
        · exact Or.inr (hempty x (by
            rw [h1]; exact List.mem_append_right _ (List.mem_cons_of_mem _ hx)))
    refine ⟨⟨hnd, by simp, by simp, ?_, ?_, by simp⟩, ?_⟩
    · intro p hp _
      obtain ⟨r, _, rfl⟩ := List.mem_map.1 hp
      exact ⟨_, hn', rfl, hK'⟩
    · intro v hv hK w hw
      rcases hrest v hv with hv1 | hv1
      · subst hv1
        left
        refine ⟨⟨n.name, ⟨w, "gossip", m⟩⟩, ?_, rfl, rfl, rfl, rfl⟩
        refine List.mem_map.2 ⟨⟨w, "gossip", m⟩, ?_, rfl⟩
        simp only [sendGossip, sendToNeighbors_eq]
        exact List.mem_map.2 ⟨w, by simpa [sendGossip] using hw, rfl⟩
      · simp only [hv1, List.not_mem_nil] at hK
    · intro x hx hxo
      rcases hrest x hx with hx1 | hx1
      · subst hx1; exact hK'
      · exfalso
        have hxn : x.name = (sendGossip n m none).1.name := by
          rw [hxo]; simp [sendGossip, h2]
        have := name_unique _ hnd x _ hx hn' hxn
        rw [this] at hx1
        simp [sendGossip] at hx1

/-- C15: start from empty gossip histories and the single call
`sendGossip(origin, m)`, in a network whose nests have different names. In
every state reached by deliveries in which every issued request has been
delivered, every nest that can be reached from the origin along neighbour
lists has `m` in its gossip history. -/
theorem gossip_reaches_every_node (nests : List Nest) (origin : String) (m : JSVal)
    (ks : List Nat) (hnames : (nests.map (fun n => n.name)).Nodup)
    (hsettled : (runNet (gossipStart nests origin m) ks).settled) :
    ∀ x ∈ (runNet (gossipStart nests origin m) ks).nests,
      Reach nests origin x.name → m ∈ x.gossip := by
  obtain ⟨h0, horigin⟩ := gossipStart_floodInv nests origin m hnames
  have hinv := runNet_floodInv _ _ _ (flood_gossip m) ks _ h0
  have hknows := runNet_knows _ _ _ (flood_gossip m) origin ks _ h0 horigin
  have htop : topology (runNet (gossipStart nests origin m) ks).nests = topology nests :=
    (runNet_topology ks _).trans (gossipStart_topology nests origin m)
  intro x hx hreach
  have hreach2 := reach_of_topology _ _ htop.symm _ _ hreach
  exact settled_reach _ _ _ _ hinv hsettled origin x.name hreach2 hknows x hx rfl

theorem sentBy_append (name : String) (l1 l2 : List Packet) :
    sentBy name (l1 ++ l2) = sentBy name l1 ++ sentBy name l2 := by
  simp [sentBy]

theorem sentBy_same (name : String) (rs : List Request) :
    sentBy name (rs.map (Packet.mk name)) = rs := by
  induction rs with
  | nil => rfl
  | cons r rs ih =>
    simp only [sentBy, List.map_cons, List.filter_cons, decide_True, if_true] at ih ⊢
    rw [ih]

theorem sentBy_other (name other : String) (rs : List Request) (h : other ≠ name) :
    sentBy name (rs.map (Packet.mk other)) = [] := by
  induction rs with
  | nil => rfl
  | cons r rs ih =>
    simp only [sentBy, List.map_cons, List.filter_cons, h, decide_False] at ih ⊢
    simpa using ih

theorem spent_append (m : JSVal) (l1 l2 : List Nest) :
    spent m (l1 ++ l2) = spent m l1 + spent m l2 := by
  simp [spent]

theorem spent_cons (m : JSVal) (n : Nest) (l : List Nest) :
    spent m (n :: l) = (if m ∈ n.gossip then n.neighbors.length else 0) + spent m l := by
  simp [spent]

theorem spent_le (m : JSVal) (l : List Nest) : spent m l ≤ degreeSum l := by
  induction l with
  | nil => simp [spent, degreeSum]
  | cons n l ih =>
    rw [spent_cons]
    have : degreeSum (n :: l) = n.neighbors.length + degreeSum l := by simp [degreeSum]
    rw [this]
    split <;> omega

theorem sendToNeighbors_length (type : String) (content : JSVal) (ex : Option String)
    (ns : List String) : (sendToNeighbors type content ex ns).length ≤ ns.length := by
  rw [sendToNeighbors_eq, List.length_map]
  exact List.length_filter_le _ _

theorem deliver_gossipInv (m : JSVal) (net : Net) (k : Nat) (h : GossipInv m net) :
    GossipInv m (deliver net k) := by
  obtain ⟨hnd, hpk, hsent, htot⟩ := h
  rcases deliver_spec net k with ⟨_, h2⟩ | ⟨p, _, _, h2⟩ | ⟨p, pre, n, post, hget, hnests, hname, h2⟩
  · rw [h2]; exact ⟨hnd, hpk, hsent, htot⟩
  · rw [h2]
    simp only [List.append_nil]
    exact ⟨hnd, hpk, hsent, htot⟩
  · have hp := hpk p (get?_mem _ _ _ hget)
    have hnin : n ∈ net.nests := by rw [hnests]; simp
    have hhandle : handle n p.request p.source = gossipHandler true n m p.source := by
      rw [handle_gossip n p.request p.source hp.1, hp.2]
    rw [hhandle] at h2
    by_cases hin : m ∈ n.gossip
    · have hg : gossipHandler true n m p.source = (n, []) := by
        simp [gossipHandler_true, hin]
      rw [hg] at h2
      simp only [List.map_nil, List.append_nil] at h2
      rw [h2, ← hnests]
      exact ⟨hnd, hpk, hsent, htot⟩
    · have hg : gossipHandler true n m p.source = sendGossip n m (some p.source) := by
        simp [gossipHandler_true, hin]
      rw [hg] at h2
      have hn0 : n.gossip = [] ∧ sentBy n.name net.issued = [] := by
        rcases hsent n hnin with h1 | h1
        · exact h1
        · rw [h1.1] at hin; simp at hin
      have hother := nodup_split pre post n (by rw [← hnests]; exact hnd)
      have hfr : (sendGossip n m (some p.source)).1.name = n.name := rfl
      rw [h2]
      refine ⟨?_, ?_, ?_, ?_⟩
      · have : (pre ++ (sendGossip n m (some p.source)).1 :: post).map (fun n => n.name) =
            net.nests.map (fun n => n.name) := by
          rw [hnests]; simp [sendGossip]
        simp only
        rw [this]; exact hnd
      · intro q hq
        rcases List.mem_append.1 hq with hq | hq
        · exact hpk q hq
        · obtain ⟨r, hr, rfl⟩ := List.mem_map.1 hq
          have := sendToNeighbors_mem _ _ _ _ r hr
          exact ⟨this.1, this.2.1⟩
      · intro x hx
        simp only [sentBy_append]
        have hold : ∀ y ∈ pre ++ post,
            (y.gossip = [] ∧ sentBy y.name net.issued ++
                sentBy y.name ((sendGossip n m (some p.source)).2.map (Packet.mk n.name)) = []) ∨
            (y.gossip = [m] ∧ ∃ ex, sentBy y.name net.issued ++
                sentBy y.name ((sendGossip n m (some p.source)).2.map (Packet.mk n.name)) =
              sendToNeighbors "gossip" m ex y.neighbors) := by
          intro y hy
          have hyn := hother y hy
          have hyin : y ∈ net.nests := by
            rw [hnests]
            rcases List.mem_append.1 hy with h1 | h1
            · exact List.mem_append_left _ h1
            · exact List.mem_append_right _ (List.mem_cons_of_mem _ h1)
          rw [sentBy_other y.name n.name _ (fun hc => hyn hc.symm), List.append_nil]
          exact hsent y hyin
        rcases List.mem_append.1 hx with h1 | h1
        · exact hold x (List.mem_append_left _ h1)
        · rcases List.mem_cons.1 h1 with h1 | h1
          · subst h1
            right
            refine ⟨by simp [sendGossip, hn0.1], some p.source, ?_⟩
            rw [hfr, hn0.2, sentBy_same]
            rfl
          · exact hold x (List.mem_append_right _ h1)
      · simp only [List.length_append, List.length_map]
        rw [hnests] at htot
        rw [spent_append, spent_cons] at htot ⊢
        have hlen := sendToNeighbors_length "gossip" m (some p.source) n.neighbors
        have h1 : m ∈ (sendGossip n m (some p.source)).1.gossip := by simp [sendGossip]
        simp only [hin, if_false] at htot
        simp only [h1, if_true]
        have h3 : (sendGossip n m (some p.source)).2.length ≤
            (sendGossip n m (some p.source)).1.neighbors.length := hlen
        omega

theorem runNet_gossipInv (m : JSVal) (ks : List Nat) :
    ∀ net, GossipInv m net → GossipInv m (runNet net ks) := by
  induction ks with
  | nil => intro net h; exact h
  | cons k ks ih => intro net h; exact ih _ (deliver_gossipInv m net k h)

theorem spent_empty (m : JSVal) (l : List Nest) (h : ∀ x ∈ l, x.gossip = []) :
    spent m l = 0 := by
  induction l with
  | nil => rfl
  | cons n l ih =>
    rw [spent_cons, ih (fun x hx => h x (List.mem_cons_of_mem _ hx))]
    simp [h n (List.mem_cons_self _ _)]

theorem gossipStart_gossipInv (nests : List Nest) (origin : String) (m : JSVal)
    (hnames : (nests.map (fun n => n.name)).Nodup) :
    GossipInv m (gossipStart nests origin m) := by
  have hnd : ((gossipStart nests origin m).nests.map (fun n => n.name)).Nodup := by
    rw [names_of_topology _ _ (gossipStart_topology nests origin m)]
    exact hnames
  have hempty : ∀ x ∈ nests.map gossipStartup, x.gossip = [] := by
    intro x hx
    obtain ⟨y, _, rfl⟩ := List.mem_map.1 hx
    rfl
  unfold gossipStart at hnd ⊢
  rcases callAt_spec origin (fun n => sendGossip n m none) (nests.map gossipStartup) with
    ⟨h1, h2⟩ | ⟨pre, n, post, h1, h2, _, h4⟩
  · rw [h2] at hnd ⊢
    simp only at hnd ⊢
    exact ⟨hnd, by simp, fun x hx => Or.inl ⟨hempty x hx, rfl⟩, by simp⟩
  · rw [h4] at hnd ⊢
    simp only at hnd ⊢
    have hpre : ∀ x ∈ pre, x.gossip = [] :=
      fun x hx => hempty x (by rw [h1]; exact List.mem_append_left _ hx)
    have hpost : ∀ x ∈ post, x.gossip = [] :=
      fun x hx => hempty x (by rw [h1]; exact List.mem_append_right _ (List.mem_cons_of_mem _ hx))
    have hn : n.gossip = [] := hempty n (by rw [h1]; simp)
    have hother := nodup_split pre post (sendGossip n m none).1 hnd
    refine ⟨hnd, ?_, ?_, ?_⟩
    · intro q hq
      obtain ⟨r, hr, rfl⟩ := List.mem_map.1 hq
      have := sendToNeighbors_mem _ _ _ _ r hr
      exact ⟨this.1, this.2.1⟩
    · intro x hx
      have hold : ∀ y ∈ pre ++ post, y.gossip = [] ∧
          sentBy y.name ((sendGossip n m none).2.map (Packet.mk n.name)) = [] := by
        intro y hy
        refine ⟨?_, sentBy_other y.name n.name _ (fun hc => hother y hy hc.symm)⟩
        rcases List.mem_append.1 hy with h5 | h5
        · exact hpre y h5
        · exact hpost y h5
      rcases List.mem_append.1 hx with h5 | h5
      · exact Or.inl (hold x (List.mem_append_left _ h5))
      · rcases List.mem_cons.1 h5 with h5 | h5
        · subst h5
          right
          refine ⟨by simp [sendGossip, hn], none, ?_⟩
          exact sentBy_same n.name _
        · exact Or.inl (hold x (List.mem_append_right _ h5))
    · simp only [List.length_map]
      rw [spent_append, spent_cons, spent_empty m pre hpre, spent_empty m post hpost]
      have h1 : m ∈ (sendGossip n m none).1.gossip := by simp [sendGossip]
      simp only [h1, if_true]
      have := sendToNeighbors_length "gossip" m none n.neighbors
      have h3 : (sendGossip n m none).2.length ≤ (sendGossip n m none).1.neighbors.length := this
      omega

/-- C14: start from empty gossip histories and the single call
`sendGossip(origin, m)`, in a network whose nests have different names and
whose neighbour lists list every edge of `edges` at both of its ends. In
every state reached by deliveries of issued requests, in any order, repeated
or left out, every request issued is a `gossip` request for `m`, every
gossip history holds `m` at most once, every nest has sent nothing or the
requests of one single call of `sendGossip`, and the number of requests
issued is at most twice the number of edges. -/
theorem gossip_flood_bounded (nests : List Nest) (origin : String) (m : JSVal)
    (ks : List Nat) (edges : List (String × String))
    (hnames : (nests.map (fun n => n.name)).Nodup)
    (hsym : (arcs nests).Perm (edges ++ edges.map Prod.swap)) :
    (∀ p ∈ (runNet (gossipStart nests origin m) ks).issued,
      p.request.type = "gossip" ∧ p.request.content = m) ∧
    (∀ x ∈ (runNet (gossipStart nests origin m) ks).nests, x.gossip.count m ≤ 1) ∧
    (∀ x ∈ (runNet (gossipStart nests origin m) ks).nests,
      sentBy x.name (runNet (gossipStart nests origin m) ks).issued = [] ∨
      ∃ ex, sentBy x.name (runNet (gossipStart nests origin m) ks).issued =
        (sendGossip x m ex).2) ∧
    (runNet (gossipStart nests origin m) ks).issued.length ≤ 2 * edges.length := by
  have hinv := runNet_gossipInv m ks _ (gossipStart_gossipInv nests origin m hnames)
  have htop : topology (runNet (gossipStart nests origin m) ks).nests = topology nests :=
    (runNet_topology ks _).trans (gossipStart_topology nests origin m)
  refine ⟨hinv.pkts, ?_, ?_, ?_⟩
  · intro x hx
    rcases hinv.sent x hx with h1 | h1
    · simp [h1.1]
    · simp [h1.1]
  · intro x hx
    rcases hinv.sent x hx with h1 | h1
    · exact Or.inl h1.2
    · exact Or.inr h1.2
  · have h1 := hinv.total
    have h2 := spent_le m (runNet (gossipStart nests origin m) ks).nests
    rw [degreeSum_of_topology _ _ htop, ← arcs_length, hsym.length_eq] at h2
    simp only [List.length_append, List.length_map] at h2
    omega

theorem handle_connections (n : Nest) (r : Request) (s : String) (name : String)
    (l : Option (List String)) (ht : r.type = "connections")
    (hc : r.content = .connMsg name l) :
    handle n r s = connectionsHandler n name l s := by
  have hg : r.type ≠ "gossip" := by rw [ht]; decide
  simp [handle, hg, ht, hc]

theorem handle_connections_state (n : Nest) (r : Request) (s : String)
    (h : (handle n r s).1.connections ≠ n.connections ∨ (handle n r s).2 ≠ [])
    (hg : r.type ≠ "gossip") :
    ∃ name l, r.type = "connections" ∧ r.content = .connMsg name l ∧
      n.connections.get name ≠ l ∧
      handle n r s = (⟨n.name, n.neighbors, n.connections.put name l, n.gossip⟩,
        sendToNeighbors "connections" (.connMsg name l) (some s) n.neighbors) := by
  unfold handle at h ⊢
  simp only [hg, if_false] at h ⊢
  by_cases ht : r.type = "connections"
  · simp only [ht, if_true] at h ⊢
    cases hc : r.content with
    | connMsg name l =>
      simp only [hc] at h ⊢
      refine ⟨name, l, trivial, rfl, ?_⟩
      unfold connectionsHandler at h ⊢
      by_cases heq : n.connections.get name = l
      · simp [heq] at h
      · refine ⟨heq, ?_⟩
        simp only [heq, if_false, broadcastConnections, get_put_eq]
    | _ => simp [hc] at h
  · simp [ht] at h

theorem handle_gossip_connections (n : Nest) (r : Request) (s : String)
    (hg : r.type = "gossip") : (handle n r s).1.connections = n.connections := by
  rw [handle_gossip n r s hg]
  rw [gossipHandler_true]
  split <;> simp [sendGossip]

/-- The handlers flood the neighbour list `L` of the nest named `x`, as long
as every `connections` request about `x` carries `L`. -/
theorem flood_connections (x : String) (L : List String) :
    Flood (fun n => n.connections.get x = some L)
      (fun r => r.type = "connections" ∧ r.content = .connMsg x (some L))
      (fun r => r.type = "connections" → ∀ l, r.content = .connMsg x l → l = some L) := by
  have hcases : ∀ (n : Nest) (r : Request) (s : String),
      ((handle n r s).1.connections = n.connections ∧ (handle n r s).2 = [] ∨
        (r.type = "gossip" ∧ (handle n r s).1.connections = n.connections)) ∨
      ∃ name l, r.type = "connections" ∧ r.content = .connMsg name l ∧
        n.connections.get name ≠ l ∧
        handle n r s = (⟨n.name, n.neighbors, n.connections.put name l, n.gossip⟩,
          sendToNeighbors "connections" (.connMsg name l) (some s) n.neighbors) := by
    intro n r s
    by_cases hg : r.type = "gossip"
    · exact Or.inl (Or.inr ⟨hg, handle_gossip_connections n r s hg⟩)
    · by_cases hch : (handle n r s).1.connections ≠ n.connections ∨ (handle n r s).2 ≠ []
      · exact Or.inr (handle_connections_state n r s hch hg)
      · left; left
        simp only [not_or, not_not] at hch
        exact hch
  refine ⟨handle_frame, ?_, ?_, ?_, ?_, ?_⟩
  · intro n r s hok q hq hqt l hql
    rcases hcases n r s with (⟨_, h2⟩ | ⟨hg, _⟩) | ⟨name, l1, ht, hc, _, heq⟩
    · rw [h2] at hq; simp at hq
    · have := handle_out_type n r s q hq
      rw [hqt, hg] at this
      exact absurd this (by decide)
    · rw [heq] at hq
      have hqc := (sendToNeighbors_mem _ _ _ _ q hq).2.1
      rw [hql] at hqc
      simp only [JSVal.connMsg.injEq] at hqc
      rw [hqc.2]
      exact hok ht l1 (by rw [hc, hqc.1])
  · intro n r s hok hK
    rcases hcases n r s with (⟨h1, _⟩ | ⟨_, h1⟩) | ⟨name, l1, ht, hc, hne, heq⟩
    · simp only [h1]; exact hK
    · simp only [h1]; exact hK
    · rw [heq]
      simp only
      by_cases hnx : name = x
      · subst hnx
        have := hok ht l1 hc
        rw [this] at hne
        exact absurd hK hne
      · rw [get_put_ne _ _ _ _ (fun hc2 => hnx hc2.symm)]
        exact hK
  · rintro n r s _ ⟨ht, hc⟩
    rw [handle_connections n r s x (some L) ht hc]
    unfold connectionsHandler
    split
    · assumption
    · simp only
      exact get_put_eq _ _ _
  · intro n r s hok hnK hK
    rcases hcases n r s with (⟨h1, _⟩ | ⟨_, h1⟩) | ⟨name, l1, ht, hc, hne, heq⟩
    · simp only [h1] at hK; exact absurd hK hnK
    · simp only [h1] at hK; exact absurd hK hnK
    · rw [heq] at hK ⊢
      simp only at hK ⊢
      by_cases hnx : name = x
      · subst hnx
        rw [get_put_eq] at hK
        subst hK
        refine ⟨⟨ht, hc⟩, ?_⟩
        intro w hw hws
        refine ⟨⟨w, "connections", .connMsg name (some L)⟩, ?_, rfl, rfl, rfl⟩
        rw [sendToNeighbors_eq]
        exact List.mem_map.2 ⟨w, by simp [hw, hws], rfl⟩
      · rw [get_put_ne _ _ _ _ (fun hc2 => hnx hc2.symm)] at hK
        exact absurd hK hnK
  · rintro n r s _ q hq ⟨hqt, hqc⟩
    rcases hcases n r s with (⟨_, h2⟩ | ⟨hg, _⟩) | ⟨name, l1, ht, hc, _, heq⟩
    · rw [h2] at hq; simp at hq
    · have := handle_out_type n r s q hq
      rw [hqt, hg] at this
      exact absurd this (by decide)
    · rw [heq] at hq ⊢
      have hqc2 := (sendToNeighbors_mem _ _ _ _ q hq).2.1
      rw [hqc] at hqc2
      simp only [JSVal.connMsg.injEq] at hqc2
      simp only
      rw [← hqc2.1, ← hqc2.2]
      exact get_put_eq _ _ _

theorem connectionsStartup_requests (y : Nest) :
    (connectionsStartup y).2 =
      sendToNeighbors "connections" (.connMsg y.name (some y.neighbors)) none y.neighbors := by
  simp [connectionsStartup, broadcastConnections, Connections.get]

theorem mem_startupPackets (nests : List Nest) (p : Packet) :
    p ∈ startupPackets nests ↔
      ∃ y ∈ nests, p.source = y.name ∧ p.request ∈ (connectionsStartup y).2 := by
  induction nests with
  | nil => simp [startupPackets]
  | cons n rest ih =>
    simp only [startupPackets, List.mem_append, List.mem_map, ih, List.mem_cons,
      exists_eq_or_imp]
    constructor
    · rintro (⟨r, hr, rfl⟩ | h)
      · exact Or.inl ⟨rfl, hr⟩
      · exact Or.inr h
    · rintro (⟨h1, h2⟩ | h)
      · exact Or.inl ⟨p.request, h2, by rw [← h1]⟩
      · exact Or.inr h

theorem connectionsStart_topology (nests : List Nest) :
    topology (connectionsStart nests).nests = topology nests := by
  simp [connectionsStart, topology, connectionsStartup, List.map_map, Function.comp]

/-- Right after start-up the invariant of the flood of the neighbour list of
the nest `x` holds, and `x` has its own entry. -/
theorem connectionsStart_floodInv (nests : List Nest) (x : Nest) (hx : x ∈ nests)
    (hnames : (nests.map (fun n => n.name)).Nodup) :
    FloodInv (fun n => n.connections.get x.name = some x.neighbors)
      (fun r => r.type = "connections" ∧ r.content = .connMsg x.name (some x.neighbors))
      (fun r => r.type = "connections" → ∀ l, r.content = .connMsg x.name l →
        l = some x.neighbors)
      (connectionsStart nests) ∧
    ∀ v ∈ (connectionsStart nests).nests, v.name = x.name →
      v.connections.get x.name = some x.neighbors := by
  have hnd : ((connectionsStart nests).nests.map (fun n => n.name)).Nodup := by
    rw [names_of_topology _ _ (connectionsStart_topology nests)]
    exact hnames
  have hmemn : ∀ v ∈ (connectionsStart nests).nests,
      ∃ y ∈ nests, v = (connectionsStartup y).1 := by
    intro v hv
    simp only [connectionsStart, List.mem_map] at hv
    obtain ⟨y, hy, rfl⟩ := hv
    exact ⟨y, hy, rfl⟩
  have hknow : ∀ y ∈ nests,
      (connectionsStartup y).1.connections.get x.name = some x.neighbors → y = x := by
    intro y hy hK
    simp only [connectionsStartup, Connections.get] at hK
    split at hK
    · rename_i hyx
      exact name_unique _ hnames y x hy hx hyx
    · simp at hK
  refine ⟨⟨hnd, by simp [connectionsStart], ?_, ?_, ?_, by simp [connectionsStart]⟩, ?_⟩
  · intro p hp _ l hl
    simp only [connectionsStart] at hp
    obtain ⟨y, hy, _, hr⟩ := (mem_startupPackets nests p).1 hp
    rw [connectionsStartup_requests] at hr
    have hc := (sendToNeighbors_mem _ _ _ _ _ hr).2.1
    rw [hl] at hc
    simp only [JSVal.connMsg.injEq] at hc
    have hyx := name_unique _ hnames y x hy hx hc.1.symm
    subst hyx
    exact hc.2
  · rintro p hp ⟨_, hc⟩
    simp only [connectionsStart] at hp
    obtain ⟨y, hy, hs, hr⟩ := (mem_startupPackets nests p).1 hp
    rw [connectionsStartup_requests] at hr
    have hc2 := (sendToNeighbors_mem _ _ _ _ _ hr).2.1
    rw [hc] at hc2
    simp only [JSVal.connMsg.injEq] at hc2
    have hyx := name_unique _ hnames y x hy hx hc2.1.symm
    subst hyx
    refine ⟨(connectionsStartup y).1, ?_, hs.symm, ?_⟩
    · simp only [connectionsStart]
      exact List.mem_map.2 ⟨y, hy, rfl⟩
    · simp [connectionsStartup, Connections.get]
  · intro v hv hK w hw
    obtain ⟨y, hy, rfl⟩ := hmemn v hv
    have hyx := hknow y hy hK
    subst hyx
    left
    refine ⟨⟨y.name, ⟨w, "connections", .connMsg y.name (some y.neighbors)⟩⟩, ?_, rfl, rfl,
      rfl, rfl⟩
    simp only [connectionsStart]
    refine (mem_startupPackets nests _).2 ⟨y, hy, rfl, ?_⟩
    rw [connectionsStartup_requests, sendToNeighbors_eq]
    exact List.mem_map.2 ⟨w, by simpa [connectionsStartup] using hw, rfl⟩
  · intro v hv hvn
    obtain ⟨y, hy, rfl⟩ := hmemn v hv
    have hyx := name_unique _ hnames y x hy hx hvn
    subst hyx
    simp [connectionsStartup, Connections.get]

/-- C17: let the nests have different names and let every nest be reachable
from every nest along neighbour lists. After the start-up, in which each
nest holds only its own entry and broadcasts it, in every state reached by
deliveries in which every issued request has been delivered, the connections
of every nest hold, for every nest of the network, that nest's neighbour
list; and in such a state the `connections` handler, given the neighbour list
of a nest of the network, changes nothing and issues no request. -/
theorem connections_converge (nests : List Nest) (ks : List Nat)
    (hnames : (nests.map (fun n => n.name)).Nodup)
    (hconnected : ∀ a ∈ nests, ∀ b ∈ nests, Reach nests a.name b.name)
    (hsettled : (runNet (connectionsStart nests) ks).settled) :
    (∀ v ∈ (runNet (connectionsStart nests) ks).nests, ∀ x ∈ nests,
      v.connections.get x.name = some x.neighbors) ∧
    (∀ v ∈ (runNet (connectionsStart nests) ks).nests, ∀ x ∈ nests, ∀ source,
      connectionsHandler v x.name (some x.neighbors) source = (v, [])) := by
  have htop : topology (runNet (connectionsStart nests) ks).nests = topology nests :=
    (runNet_topology ks _).trans (connectionsStart_topology nests)
  have hall : ∀ v ∈ (runNet (connectionsStart nests) ks).nests, ∀ x ∈ nests,
      v.connections.get x.name = some x.neighbors := by
    intro v hv x hx
    obtain ⟨h0, hown⟩ := connectionsStart_floodInv nests x hx hnames
    have hF := flood_connections x.name x.neighbors
    have hinv := runNet_floodInv _ _ _ hF ks _ h0
    have hknows := runNet_knows _ _ _ hF x.name ks _ h0 hown
    have hvmem : (v.name, v.neighbors) ∈ topology nests := by
      rw [← htop]; exact List.mem_map.2 ⟨v, hv, rfl⟩
    obtain ⟨u, hu, hue⟩ := List.mem_map.1 hvmem
    simp only [Prod.mk.injEq] at hue
    have hreach : Reach nests x.name v.name := by
      rw [← hue.1]; exact hconnected x hx u hu
    have hreach2 := reach_of_topology _ _ htop.symm _ _ hreach
    exact settled_reach _ _ _ _ hinv hsettled x.name v.name hreach2 hknows v hv rfl
  refine ⟨hall, ?_⟩
  intro v hv x hx source
  simp [connectionsHandler, hall v hv x hx]

/-- Witness of `gossip_flood_bounded`: on the line A, B, C, with the
deliveries repeated, two requests are issued for two edges. -/
theorem gossip_flood_bounded_witness :
    (runNet (gossipStart lineABC "A" (.str "hi")) [0, 1, 1, 0]).issued.length = 2 ∧
    (runNet (gossipStart lineABC "A" (.str "hi")) [0, 1, 1, 0]).issued.length ≤
      2 * [("A", "B"), ("B", "C")].length :=
  ⟨by decide,
   (gossip_flood_bounded lineABC "A" (.str "hi") [0, 1, 1, 0] [("A", "B"), ("B", "C")]
    (by decide) (by decide)).2.2.2⟩

/-- Witness of `gossip_reaches_every_node`: on the line A, B, C the message
of `A` is in the history of `C` once both requests are delivered. -/
theorem gossip_reaches_every_node_witness :
    (runNet (gossipStart lineABC "A" (.str "hi")) [0, 1]).settled ∧
    JSVal.str "hi" ∈ (Nest.mk "C" ["B"] [] [.str "hi"]).gossip :=
  ⟨by unfold Net.settled; decide,
   gossip_reaches_every_node lineABC "A" (.str "hi") [0, 1] (by decide)
    (by unfold Net.settled; decide) ⟨"C", ["B"], [], [.str "hi"]⟩ (by decide)
    (Relation.ReflTransGen.tail
      (Relation.ReflTransGen.tail Relation.ReflTransGen.refl
        ⟨⟨"A", ["B"], [], []⟩, by decide, rfl, by decide⟩)
      ⟨⟨"B", ["A", "C"], [], []⟩, by decide, rfl, by decide⟩)⟩

/-- Witness of `connections_converge`: two nests `A` and `B` that are
neighbours of each other; after the two start-up requests are delivered,
`A` holds the neighbour list of `B`. -/
theorem connections_converge_witness :
    (runNet (connectionsStart [⟨"A", ["B"], [], []⟩, ⟨"B", ["A"], [], []⟩]) [0, 1]).settled ∧
    (Nest.mk "A" ["B"] [("A", ["B"]), ("B", ["A"])] []).connections.get "B" = some ["A"] :=
  ⟨by unfold Net.settled; decide,
   (connections_converge [⟨"A", ["B"], [], []⟩, ⟨"B", ["A"], [], []⟩] [0, 1] (by decide)
    (by
      have hab : Linked [⟨"A", ["B"], [], []⟩, ⟨"B", ["A"], [], []⟩] "A" "B" :=
        ⟨⟨"A", ["B"], [], []⟩, by decide, rfl, by decide⟩
      have hba : Linked [⟨"A", ["B"], [], []⟩, ⟨"B", ["A"], [], []⟩] "B" "A" :=
        ⟨⟨"B", ["A"], [], []⟩, by decide, rfl, by decide⟩
      intro a ha b hb
      simp only [List.mem_cons, List.mem_singleton, List.not_mem_nil, or_false] at ha hb
      rcases ha with rfl | rfl <;> rcases hb with rfl | rfl
      · exact Relation.ReflTransGen.refl
      · exact Relation.ReflTransGen.single hab
      · exact Relation.ReflTransGen.single hba
      · exact Relation.ReflTransGen.refl)
    (by unfold Net.settled; decide)).1
    ⟨"A", ["B"], [("A", ["B"]), ("B", ["A"])], []⟩ (by decide) ⟨"B", ["A"], [], []⟩
    (by decide)⟩

end AsyncProg
